import Mathlib

/-!
Verification of the rave-wasm installation / session-orchestration core.

Shallow embedding of the JavaScript sources:
  * `src/src/utils/port-manager.js`            (class PortManager)
  * `src/src/plugins/plugin-manager.js`        (class RAVEInstaller: checklist
    workflow engine, and the prerequisite checker with its cache)
  * `src/src/plugins/r-plugin/r-session-manager.js`     (class RSessionManager)
  * `src/src/plugins/r-plugin/shell-session-manager.js` (class ShellSessionManager)

Each definition is translated from its JS source function.  External effects
(binding a TCP listener, spawning a process, timers) are passed in as oracle
parameters describing the outcome of the effect; all state mutation is made
explicit by state passing.
-/

/-! ## Port manager (`src/src/utils/port-manager.js`)

`usedPorts` is a JS `Set` (no duplicates, membership adds are idempotent);
`availablePorts` is a JS array used as a FIFO queue (`shift` from the front,
`push` to the back). -/

structure PortManager where
  startPort : Nat
  endPort : Nat
  usedPorts : List Nat
  availablePorts : List Nat
deriving Repr, DecidableEq

/-- `new PortManager(startPort, endPort)`. -/
def PortManager.init (startPort endPort : Nat) : PortManager :=
  ⟨startPort, endPort, [], []⟩

/-- JS `Set.prototype.add`: insert if absent (insertion order at the back). -/
def setAdd (s : List Nat) (p : Nat) : List Nat :=
  if p ∈ s then s else s ++ [p]

/-- The probe loop of `allocatePort`: `for (port = start; port <= end; port++)`
trying ports not already in `usedPorts` against the `isPortAvailable` bind
probe (modelled by the oracle `bind`).  `n` counts the remaining ports. -/
def probePorts (bind : Nat → Bool) (used : List Nat) : Nat → Nat → Option Nat
  | _, 0 => none
  | port, n + 1 =>
      if port ∉ used ∧ bind port then some port
      else probePorts bind used (port + 1) n

/-- `allocatePort()`: pop the reuse free list first, else probe the range;
`none` models the thrown exhaustion error. -/
def PortManager.allocatePort (bind : Nat → Bool) (pm : PortManager) :
    Option (Nat × PortManager) :=
  match pm.availablePorts with
  | p :: rest =>
      some (p, { pm with availablePorts := rest, usedPorts := setAdd pm.usedPorts p })
  | [] =>
      match probePorts bind pm.usedPorts pm.startPort (pm.endPort + 1 - pm.startPort) with
      | some p => some (p, { pm with usedPorts := setAdd pm.usedPorts p })
      | none => none

/-- `releasePort(port)`: no-op unless the port is in use; else move it from the
in-use set to the back of the free list. -/
def PortManager.releasePort (p : Nat) (pm : PortManager) : PortManager :=
  if p ∈ pm.usedPorts then
    { pm with usedPorts := pm.usedPorts.erase p,
              availablePorts := pm.availablePorts ++ [p] }
  else pm

/-- One externally observable call against the port pool. -/
inductive PortOp where
  | alloc (bind : Nat → Bool)
  | release (p : Nat)

/-- Apply one call (a failed allocation leaves the state unchanged, as the
thrown error escapes before any mutation beyond the probe loop). -/
def PortManager.applyOp (pm : PortManager) : PortOp → PortManager
  | .alloc bind =>
      match pm.allocatePort bind with
      | some (_, pm') => pm'
      | none => pm
  | .release p => pm.releasePort p

/-- Run a sequence of calls from a state. -/
def PortManager.run (pm : PortManager) : List PortOp → PortManager
  | [] => pm
  | op :: ops => (pm.applyOp op).run ops

/-- The pool invariant of claim C9: the in-use set and the free list are
each duplicate-free and mutually disjoint. -/
def PortManager.Inv (pm : PortManager) : Prop :=
  pm.usedPorts.Nodup ∧ pm.availablePorts.Nodup ∧
    ∀ p ∈ pm.usedPorts, p ∉ pm.availablePorts

theorem probePorts_not_used {bind : Nat → Bool} {used : List Nat} :
    ∀ {first n p}, probePorts bind used first n = some p → p ∉ used := by
  intro first n
  induction n generalizing first with
  | zero => intro p h; simp [probePorts] at h
  | succ n ih =>
      intro p h
      by_cases hc : first ∉ used ∧ bind first = true
      · simp [probePorts, hc] at h
        exact h ▸ hc.1
      · simp only [probePorts, if_neg hc] at h
        exact ih h

theorem nodup_append_fresh {l : List Nat} {q : Nat} (hu : l.Nodup) (hq : q ∉ l) :
    (l ++ [q]).Nodup := by
  refine hu.append (List.nodup_singleton q) ?_
  intro a ha hqa
  simp at hqa
  subst hqa
  exact hq ha

theorem allocatePort_inv {bind : Nat → Bool} {pm : PortManager} {p : Nat}
    {pm' : PortManager} (h : pm.allocatePort bind = some (p, pm'))
    (hinv : pm.Inv) : pm'.Inv := by
  obtain ⟨hu, ha, hd⟩ := hinv
  unfold PortManager.allocatePort at h
  cases hav : pm.availablePorts with
  | cons q rest =>
      rw [hav] at h
      simp only [Option.some.injEq, Prod.mk.injEq] at h
      obtain ⟨_, hpm⟩ := h
      subst hpm
      have hrest : rest.Nodup := (List.nodup_cons.mp (hav ▸ ha)).2
      have hqrest : q ∉ rest := (List.nodup_cons.mp (hav ▸ ha)).1
      have hqused : q ∉ pm.usedPorts := fun hmem => hd q hmem (hav ▸ List.mem_cons_self _ _)
      have hq : setAdd pm.usedPorts q = pm.usedPorts ++ [q] := by
        simp [setAdd, hqused]
      refine ⟨?_, hrest, ?_⟩
      · rw [hq]
        exact nodup_append_fresh hu hqused
      · intro x hx hxa
        rw [hq, List.mem_append] at hx
        rcases hx with hx | hx
        · exact hd x hx (hav ▸ List.mem_cons_of_mem _ hxa)
        · simp at hx
          subst hx
          exact hqrest hxa
  | nil =>
      rw [hav] at h
      cases hpr : probePorts bind pm.usedPorts pm.startPort (pm.endPort + 1 - pm.startPort) with
      | none => rw [hpr] at h; exact absurd h (by simp)
      | some q =>
          rw [hpr] at h
          simp only [Option.some.injEq, Prod.mk.injEq] at h
          obtain ⟨_, hpm⟩ := h
          subst hpm
          have hqused : q ∉ pm.usedPorts := probePorts_not_used hpr
          refine ⟨?_, by simp, ?_⟩
          · simp only [setAdd, if_neg hqused]
            exact nodup_append_fresh hu hqused
          · intro x _ hxa
            simp at hxa

theorem releasePort_inv {pm : PortManager} {p : Nat} (hinv : pm.Inv) :
    (pm.releasePort p).Inv := by
  obtain ⟨hu, ha, hd⟩ := hinv
  unfold PortManager.releasePort
  by_cases hp : p ∈ pm.usedPorts
  · simp only [if_pos hp]
    refine ⟨hu.erase p, ?_, ?_⟩
    · simpa [List.nodup_append] using ⟨ha, hd p hp⟩
    · intro x hx hxa
      have hxu : x ∈ pm.usedPorts := List.mem_of_mem_erase hx
      rw [List.mem_append] at hxa
      rcases hxa with hxa | hxa
      · exact hd x hxu hxa
      · simp at hxa
        subst hxa
        exact (List.Nodup.not_mem_erase hu) hx
  · simpa [if_neg hp] using ⟨hu, ha, hd⟩

theorem applyOp_inv {pm : PortManager} {op : PortOp} (hinv : pm.Inv) :
    (pm.applyOp op).Inv := by
  cases op with
  | alloc bind =>
      cases h : pm.allocatePort bind with
      | none => simp only [PortManager.applyOp, h]; exact hinv
      | some pr =>
          obtain ⟨p, pm'⟩ := pr
          simp only [PortManager.applyOp, h]
          exact allocatePort_inv h hinv
  | release p => exact releasePort_inv hinv

theorem run_inv {pm : PortManager} (hinv : pm.Inv) :
    ∀ ops : List PortOp, (pm.run ops).Inv := by
  intro ops
  induction ops generalizing pm with
  | nil => simpa [PortManager.run] using hinv
  | cons op ops ih => exact ih (applyOp_inv hinv)

/-- Claim C9: starting from a freshly constructed `PortManager`, after every
sequence of `allocatePort` / `releasePort` calls the in-use set and the free
list are disjoint and duplicate-free, and releasing a port that is not in use
leaves the state unchanged. -/
theorem portPool_invariant (s e : Nat) (ops : List PortOp) (pm : PortManager)
    (p : Nat) (hp : p ∉ pm.usedPorts) :
    ((PortManager.init s e).run ops).Inv ∧ pm.releasePort p = pm := by
  constructor
  · exact run_inv (by refine ⟨by simp [PortManager.init], by simp [PortManager.init], ?_⟩
                      intro q hq
                      simp [PortManager.init] at hq) ops
  · simp [PortManager.releasePort, hp]

theorem portPool_invariant_witness :
    (2 : Nat) ∉ (PortManager.init 8100 8101).usedPorts ∧
      (((PortManager.init 8100 8101).run
          [PortOp.alloc (fun _ => true), PortOp.release 8100]).Inv ∧
        (PortManager.init 8100 8101).releasePort 2 = PortManager.init 8100 8101) := by
  refine ⟨by simp [PortManager.init], ?_⟩
  exact portPool_invariant 8100 8101 [PortOp.alloc (fun _ => true), PortOp.release 8100]
    (PortManager.init 8100 8101) 2 (by simp [PortManager.init])

/-- The two-port scenario states of claim C6 (range `[8100, 8101]`, every port
bindable). -/
def allBindable : Nat → Bool := fun _ => true

theorem allocate_after_release_counterexample :
    (((PortManager.init 8100 8101).run
        [PortOp.alloc allBindable, PortOp.alloc allBindable,
         PortOp.release 8100, PortOp.release 8101]).allocatePort allBindable).map
        Prod.fst = some 8100 ∧ (8100 : Nat) ≠ 8101 := by
  constructor
  · rfl
  · decide

/-- Claim C6, amended: over the range `[8100, 8101]` with all ports bindable,
two allocations return 8100 then 8101, a third fails with exhaustion, and
after `releasePort(8100)` the next allocation returns 8100.  In general an
allocation serves the **head** of the FIFO free list before probing any new
port (so `allocate()` right after `release(p)` returns `p` only when no other
released port is queued ahead; it always does when the free list was empty
before the release). -/
theorem port_scenario_and_fifo_reuse (pm : PortManager) (bind : Nat → Bool)
    (p : Nat) (rest : List Nat) (hhead : pm.availablePorts = p :: rest)
    (pm2 : PortManager) (q : Nat) (hempty : pm2.availablePorts = [])
    (hq : q ∈ pm2.usedPorts) :
    ((PortManager.init 8100 8101).allocatePort allBindable =
        some (8100, ⟨8100, 8101, [8100], []⟩) ∧
      (PortManager.mk 8100 8101 [8100] []).allocatePort allBindable =
        some (8101, ⟨8100, 8101, [8100, 8101], []⟩) ∧
      (PortManager.mk 8100 8101 [8100, 8101] []).allocatePort allBindable = none ∧
      (PortManager.mk 8100 8101 [8100, 8101] []).releasePort 8100 =
        ⟨8100, 8101, [8101], [8100]⟩ ∧
      ((PortManager.mk 8100 8101 [8101] [8100]).allocatePort allBindable).map
        Prod.fst = some 8100) ∧
    (pm.allocatePort bind).map Prod.fst = some p ∧
    ((pm2.releasePort q).allocatePort bind).map Prod.fst = some q := by
  refine ⟨⟨rfl, rfl, rfl, rfl, rfl⟩, ?_, ?_⟩
  · simp [PortManager.allocatePort, hhead]
  · simp [PortManager.releasePort, hq, PortManager.allocatePort, hempty]

theorem port_scenario_and_fifo_reuse_witness :
    ((PortManager.mk 8100 8101 [8101] [8100]).availablePorts = [8100] ∧
      (PortManager.mk 8100 8101 [8101] []).availablePorts = [] ∧
      8101 ∈ (PortManager.mk 8100 8101 [8101] []).usedPorts) ∧
    ((PortManager.mk 8100 8101 [8101] [8100]).allocatePort allBindable).map
        Prod.fst = some 8100 ∧
    (((PortManager.mk 8100 8101 [8101] []).releasePort 8101).allocatePort
        allBindable).map Prod.fst = some 8101 := by
  refine ⟨⟨rfl, rfl, by decide⟩, ?_⟩
  have h := port_scenario_and_fifo_reuse (PortManager.mk 8100 8101 [8101] [8100])
    allBindable 8100 [] rfl (PortManager.mk 8100 8101 [8101] []) 8101 rfl (by decide)
  exact ⟨h.2.1, h.2.2⟩

/-! ## Prerequisite checker cache (`src/src/plugins/plugin-manager.js`,
second `RAVEInstaller` class)

`cacheManager` stores JSON records by string key; successive `setJsonCache`
calls overwrite, so lookup returns the most recent record for a key.  The JS
truthiness test `cached.timestamp` is modelled as `timestamp ≠ 0`. -/

def ONE_DAY : Nat := 24 * 60 * 60 * 1000

/-- `_getCacheKey()`: the template literal over platform and OS release. -/
def getCacheKey (platform osVersion : String) : String :=
  "prerequisites-" ++ platform ++ "-" ++ osVersion

/-- Result shape produced by the per-platform prerequisite checkers. -/
structure PrereqResult where
  passed : Bool
  issues : List String
  commands : List String
  instructions : String
deriving Repr, DecidableEq

/-- A cached record: the result spread together with `timestamp` and
`osVersion` (`_cachePrerequisites`). -/
structure PrereqCacheRecord where
  passed : Bool
  issues : List String
  commands : List String
  instructions : String
  timestamp : Nat
  osVersion : String
deriving Repr, DecidableEq

/-- The JSON cache store: later `set` calls shadow earlier ones. -/
def getJsonCache (cache : List (String × PrereqCacheRecord)) (k : String) :
    Option PrereqCacheRecord :=
  (cache.reverse.find? (fun e => e.1 == k)).map (·.2)

def setJsonCache (cache : List (String × PrereqCacheRecord)) (k : String)
    (v : PrereqCacheRecord) : List (String × PrereqCacheRecord) :=
  cache ++ [(k, v)]

/-- `_getCachedPrerequisites()`: a record is returned only if present, with a
truthy timestamp, `passed`, and younger than one day. -/
def getCachedPrerequisites (cache : List (String × PrereqCacheRecord))
    (platform osVersion : String) (now : Nat) : Option PrereqCacheRecord :=
  match getJsonCache cache (getCacheKey platform osVersion) with
  | some cached =>
      if cached.timestamp ≠ 0 ∧ cached.passed = true ∧ now - cached.timestamp < ONE_DAY
      then some cached else none
  | none => none

/-- `_cachePrerequisites(result)`: only a passed result is written. -/
def cachePrerequisites (cache : List (String × PrereqCacheRecord))
    (result : PrereqResult) (platform osVersion : String) (now : Nat) :
    List (String × PrereqCacheRecord) :=
  if result.passed = false then cache
  else
    setJsonCache cache (getCacheKey platform osVersion)
      ⟨result.passed, result.issues, result.commands, result.instructions, now, osVersion⟩

/-- Observable outcome of one `checkPrerequisites` call.  `probe` stands for
the platform-specific checker result (`_checkMacOSPrerequisites` etc.), which
is consulted only when no valid cache record is found. -/
structure CheckOutcome where
  result : PrereqResult
  cachedFlag : Bool
  newCache : List (String × PrereqCacheRecord)
  ranProbe : Bool
deriving Repr

/-- `checkPrerequisites(forceCheck)`. -/
def checkPrerequisites (cache : List (String × PrereqCacheRecord))
    (platform osVersion : String) (now : Nat) (probe : PrereqResult)
    (forceCheck : Bool) : CheckOutcome :=
  let fresh : CheckOutcome :=
    ⟨probe, false, cachePrerequisites cache probe platform osVersion now, true⟩
  if forceCheck = false then
    match getCachedPrerequisites cache platform osVersion now with
    | some c => ⟨⟨c.passed, c.issues, c.commands, c.instructions⟩, true, cache, false⟩
    | none => fresh
  else fresh

theorem cachePrerequisites_not_passed (cache : List (String × PrereqCacheRecord))
    (r : PrereqResult) (plat osv : String) (now : Nat) (h : r.passed = false) :
    cachePrerequisites cache r plat osv now = cache := by
  simp [cachePrerequisites, h]

/-- A record invalid at `now` stays invalid at any later `now2`: the
timestamp-truthiness and `passed` checks are time-independent, and a record
already a day old only gets older. -/
theorem getCachedPrerequisites_none_mono (cache : List (String × PrereqCacheRecord))
    (plat osv : String) {now now2 : Nat}
    (h : getCachedPrerequisites cache plat osv now = none) (hle : now ≤ now2) :
    getCachedPrerequisites cache plat osv now2 = none := by
  unfold getCachedPrerequisites at h ⊢
  revert h
  cases hj : getJsonCache cache (getCacheKey plat osv) with
  | none => intro _; rfl
  | some cached =>
      intro h
      dsimp only at h ⊢
      by_cases hc2 : cached.timestamp ≠ 0 ∧ cached.passed = true ∧
          now2 - cached.timestamp < ONE_DAY
      · exfalso
        have hcnow : cached.timestamp ≠ 0 ∧ cached.passed = true ∧
            now - cached.timestamp < ONE_DAY := by
          refine ⟨hc2.1, hc2.2.1, ?_⟩
          have hsub : now - cached.timestamp ≤ now2 - cached.timestamp :=
            Nat.sub_le_sub_right hle _
          omega
        rw [if_pos hcnow] at h
        exact absurd h (by simp)
      · rw [if_neg hc2]

/-- Claim C8: results are stored only when passed, under the platform +
OS-release key; a cached record is served only while passed and younger than
one day; a failing probe result never changes the cache — in particular on a
cache miss (no valid record, the state in which an unforced check actually
runs) the probe runs, its failing result is not stored, and every subsequent
call on the resulting cache runs the probe again. -/
theorem prereq_cache_policy (cache : List (String × PrereqCacheRecord))
    (r probe probe2 : PrereqResult) (plat osv : String) (now now2 : Nat)
    (force force2 : Bool) :
    (r.passed = false → cachePrerequisites cache r plat osv now = cache) ∧
    (∀ c, getCachedPrerequisites cache plat osv now = some c →
      c.passed = true ∧ now - c.timestamp < ONE_DAY) ∧
    getCacheKey plat osv = "prerequisites-" ++ plat ++ "-" ++ osv ∧
    (probe.passed = false →
      (checkPrerequisites cache plat osv now probe force).newCache = cache) ∧
    ((checkPrerequisites cache plat osv now probe force).newCache ≠ cache →
      probe.passed = true) ∧
    (getCachedPrerequisites cache plat osv now = none →
      (checkPrerequisites cache plat osv now probe force).ranProbe = true ∧
      (checkPrerequisites cache plat osv now probe force).result = probe) ∧
    (getCachedPrerequisites cache plat osv now = none → probe.passed = false →
      now ≤ now2 →
      (checkPrerequisites
        (checkPrerequisites cache plat osv now probe force).newCache
        plat osv now2 probe2 force2).ranProbe = true) := by
  have hnewfail : probe.passed = false →
      (checkPrerequisites cache plat osv now probe force).newCache = cache := by
    intro hp
    unfold checkPrerequisites
    cases hforce : force with
    | false =>
        simp only [hforce]
        cases hcc : getCachedPrerequisites cache plat osv now with
        | some c2 => simp
        | none => simp [cachePrerequisites_not_passed _ _ _ _ _ hp]
    | true => simp [hforce, cachePrerequisites_not_passed _ _ _ _ _ hp]
  have hmiss : ∀ (cache2 : List (String × PrereqCacheRecord)) (pr : PrereqResult)
      (n : Nat) (f : Bool), getCachedPrerequisites cache2 plat osv n = none →
      (checkPrerequisites cache2 plat osv n pr f).ranProbe = true ∧
      (checkPrerequisites cache2 plat osv n pr f).result = pr := by
    intro cache2 pr n f hnone
    unfold checkPrerequisites
    cases hforce : f with
    | false => simp [hnone]
    | true => simp
  refine ⟨cachePrerequisites_not_passed cache r plat osv now, ?_, rfl,
    hnewfail, ?_, hmiss cache probe now force, ?_⟩
  · intro c hget
    unfold getCachedPrerequisites at hget
    cases hj : getJsonCache cache (getCacheKey plat osv) with
    | none => rw [hj] at hget; exact absurd hget (by simp)
    | some cached =>
        rw [hj] at hget
        dsimp only at hget
        by_cases hc : cached.timestamp ≠ 0 ∧ cached.passed = true ∧
            now - cached.timestamp < ONE_DAY
        · rw [if_pos hc] at hget
          cases hget
          exact ⟨hc.2.1, hc.2.2⟩
        · rw [if_neg hc] at hget
          exact absurd hget (by simp)
  · intro hne
    by_contra hp
    rw [Bool.not_eq_true] at hp
    exact hne (hnewfail hp)
  · intro hnone hp hle
    rw [hnewfail hp]
    cases hforce2 : force2 with
    | false =>
        exact (hmiss cache probe2 now2 false
          (getCachedPrerequisites_none_mono cache plat osv hnone hle)).1
    | true =>
        unfold checkPrerequisites
        simp

theorem prereq_cache_policy_witness :
    ((⟨false, ["x"], [], "i"⟩ : PrereqResult).passed = false ∧
      getCachedPrerequisites [] "linux" "6.1" 20 = none ∧
      (20 : Nat) ≤ 30) ∧
    cachePrerequisites [] ⟨false, ["x"], [], "i"⟩ "linux" "6.1" 20 = [] ∧
    (checkPrerequisites [] "linux" "6.1" 20 ⟨false, ["x"], [], "i"⟩ false).ranProbe
      = true ∧
    (checkPrerequisites [] "linux" "6.1" 20 ⟨false, ["x"], [], "i"⟩ false).newCache
      = [] ∧
    (checkPrerequisites
      (checkPrerequisites [] "linux" "6.1" 20 ⟨false, ["x"], [], "i"⟩ false).newCache
      "linux" "6.1" 30 ⟨false, ["x"], [], "i"⟩ false).ranProbe = true := by
  refine ⟨⟨rfl, rfl, by decide⟩, ?_⟩
  have h := prereq_cache_policy [] ⟨false, ["x"], [], "i"⟩ ⟨false, ["x"], [], "i"⟩
    ⟨false, ["x"], [], "i"⟩ "linux" "6.1" 20 30 false false
  exact ⟨h.1 rfl, (h.2.2.2.2.2.1 rfl).1, h.2.2.2.1 rfl,
    h.2.2.2.2.2.2 rfl rfl (by decide)⟩

/-! ## String machinery for the sentinel protocol

`splitBefore pat l` is `l.split(pat)[0]` of JS (the text before the first
occurrence of `pat`, or all of `l` when `pat` does not occur); `containsSub`
is `String.prototype.includes`; `jsTrim` is `String.prototype.trim`.  All are
over `List Char`. -/

def splitBefore (pat : List Char) : List Char → List Char
  | [] => []
  | c :: cs => if pat.isPrefixOf (c :: cs) then [] else c :: splitBefore pat cs

def containsSub (pat : List Char) : List Char → Bool
  | [] => pat.isEmpty
  | c :: cs => pat.isPrefixOf (c :: cs) || containsSub pat cs

def jsTrim (l : List Char) : List Char :=
  ((l.dropWhile Char.isWhitespace).reverse.dropWhile Char.isWhitespace).reverse

theorem isPrefixOf_exists_append {p l : List Char} (h : p.isPrefixOf l = true) :
    ∃ t, l = p ++ t := by
  induction p generalizing l with
  | nil => exact ⟨l, rfl⟩
  | cons a as ih =>
      cases l with
      | nil => simp [List.isPrefixOf] at h
      | cons b bs =>
          simp only [List.isPrefixOf, Bool.and_eq_true, beq_iff_eq] at h
          obtain ⟨t, ht⟩ := ih h.2
          exact ⟨t, by simp [h.1, ht]⟩

theorem isPrefixOf_of_append {p t : List Char} : p.isPrefixOf (p ++ t) = true := by
  induction p with
  | nil => simp [List.isPrefixOf]
  | cons a as ih => simp [List.isPrefixOf, ih]

theorem containsSub_append_right {pat x : List Char} (b : List Char)
    (h : containsSub pat x = true) : containsSub pat (x ++ b) = true := by
  induction x with
  | nil =>
      simp only [containsSub, List.isEmpty_iff] at h
      subst h
      cases b with
      | nil => simp [containsSub]
      | cons c cs => simp [containsSub, List.isPrefixOf]
  | cons c cs ih =>
      simp only [containsSub, Bool.or_eq_true] at h ⊢
      rcases h with h | h
      · obtain ⟨t, ht⟩ := isPrefixOf_exists_append h
        left
        have hgoal : pat.isPrefixOf ((c :: cs) ++ b) = true := by
          rw [ht, List.append_assoc]
          exact isPrefixOf_of_append
        exact hgoal
      · exact Or.inr (ih h)

theorem containsSub_append_left {pat x : List Char} (a : List Char)
    (h : containsSub pat x = true) : containsSub pat (a ++ x) = true := by
  induction a with
  | nil => simpa using h
  | cons c cs ih =>
      simp only [List.cons_append, containsSub, Bool.or_eq_true]
      exact Or.inr ih

theorem splitBefore_spec {pat : List Char} (l : List Char)
    (h : containsSub pat l = true) :
    ∃ rest, l = splitBefore pat l ++ pat ++ rest := by
  induction l with
  | nil =>
      simp only [containsSub, List.isEmpty_iff] at h
      exact ⟨[], by simp [h, splitBefore]⟩
  | cons c cs ih =>
      by_cases hp : pat.isPrefixOf (c :: cs) = true
      · obtain ⟨t, ht⟩ := isPrefixOf_exists_append hp
        exact ⟨t, by simp [splitBefore, hp, ht]⟩
      · simp only [containsSub, Bool.or_eq_true] at h
        rcases h with h | h
        · exact absurd h hp
        · obtain ⟨rest, hrest⟩ := ih h
          refine ⟨rest, ?_⟩
          simp only [splitBefore, if_neg hp, List.cons_append]
          rw [← hrest]

theorem splitBefore_prefix_sub {pat : List Char} :
    ∀ l, ∃ t, l = splitBefore pat l ++ t := by
  intro l
  induction l with
  | nil => exact ⟨[], rfl⟩
  | cons c cs ih =>
      by_cases hp : pat.isPrefixOf (c :: cs) = true
      · exact ⟨c :: cs, by simp [splitBefore, hp]⟩
      · obtain ⟨t, ht⟩ := ih
        refine ⟨t, ?_⟩
        simp only [splitBefore, if_neg hp, List.cons_append]
        rw [← ht]

theorem splitBefore_no_occurrence {pat : List Char} (hne : pat ≠ []) :
    ∀ l, containsSub pat (splitBefore pat l) = false := by
  intro l
  induction l with
  | nil => simpa [splitBefore, containsSub, List.isEmpty_iff] using hne
  | cons c cs ih =>
      by_cases hp : pat.isPrefixOf (c :: cs) = true
      · simpa [splitBefore, hp, containsSub, List.isEmpty_iff] using hne
      · simp only [splitBefore, if_neg hp, containsSub, Bool.or_eq_false_iff]
        constructor
        · obtain ⟨t, ht⟩ := @splitBefore_prefix_sub pat cs
          by_contra hpre
          rw [Bool.not_eq_false] at hpre
          obtain ⟨u, hu⟩ := isPrefixOf_exists_append hpre
          apply hp
          have hrw : c :: cs = pat ++ (u ++ t) := by
            conv_lhs => rw [ht]
            rw [← List.cons_append, hu, List.append_assoc]
          rw [hrw]
          exact isPrefixOf_of_append
        · exact ih

theorem jsTrim_decomposition (l : List Char) :
    ∃ a b, l = a ++ jsTrim l ++ b := by
  refine ⟨l.takeWhile Char.isWhitespace,
    ((l.dropWhile Char.isWhitespace).reverse.takeWhile Char.isWhitespace).reverse, ?_⟩
  unfold jsTrim
  have h1 : l = l.takeWhile Char.isWhitespace ++ l.dropWhile Char.isWhitespace :=
    (List.takeWhile_append_dropWhile Char.isWhitespace l).symm
  have h2 : (l.dropWhile Char.isWhitespace).reverse =
      (l.dropWhile Char.isWhitespace).reverse.takeWhile Char.isWhitespace ++
        (l.dropWhile Char.isWhitespace).reverse.dropWhile Char.isWhitespace :=
    (List.takeWhile_append_dropWhile Char.isWhitespace _).symm
  have h3 : l.dropWhile Char.isWhitespace =
      ((l.dropWhile Char.isWhitespace).reverse.dropWhile Char.isWhitespace).reverse ++
        ((l.dropWhile Char.isWhitespace).reverse.takeWhile Char.isWhitespace).reverse := by
    conv_lhs => rw [← List.reverse_reverse (l.dropWhile Char.isWhitespace)]
    rw [← List.reverse_append, ← h2]
  rw [List.append_assoc, ← h3]
  exact h1

theorem jsTrim_no_occurrence {pat l : List Char}
    (h : containsSub pat l = false) : containsSub pat (jsTrim l) = false := by
  by_contra hc
  rw [Bool.not_eq_false] at hc
  obtain ⟨a, b, hab⟩ := jsTrim_decomposition l
  have : containsSub pat l = true := by
    rw [hab, List.append_assoc]
    exact containsSub_append_left a (containsSub_append_right b hc)
  rw [h] at this
  exact absurd this (by simp)

/-! ## R session manager (`src/src/plugins/r-plugin/r-session-manager.js`)

A session record holds the fields set by `createSession` (the child-process
handle is represented by the listener bookkeeping: `pendingMarkers` is the
list of end markers whose `outputListener` is currently attached to the
process stdout by in-flight `execute` calls; the unused `pendingCommands`
array of the source is omitted).  `status` is `"running"` from creation and
becomes `"crashed"` on process exit or error. -/

structure RSession where
  rPath : String
  port : Nat
  status : String
  output : List Char
  stderr : List Char
  pendingMarkers : List (List Char)
  headless : Bool
deriving Repr, DecidableEq

/-- `this.sessions` map lookup; `Map.set` overwrites, so the latest binding
for an id wins. -/
def lookupRSession (sessions : List (String × RSession)) (sessionId : String) :
    Option RSession :=
  (sessions.reverse.find? (fun e => e.1 == sessionId)).map (·.2)

/-- The sentinel `___END_MARKER_${Date.now()}___` appended by `execute`. -/
def endMarker (now : Nat) : List Char :=
  "___END_MARKER_".toList ++ (Nat.repr now).toList ++ "___".toList

/-- Result shape of `execute` (`output` may be `null`). -/
structure RExecResult where
  success : Bool
  output : Option (List Char)
  error : Option (List Char)
deriving Repr, DecidableEq

/-- Synchronous outcome of calling `execute`: either the returned promise is
already resolved with a result (missing session, wrong status, stdin write
error), or a command is now in flight with its sentinel listener attached. -/
inductive RExecStart where
  | immediate (r : RExecResult)
  | pending (s : RSession)
deriving Repr, DecidableEq

/-- `execute(sessionId, code, timeout)` up to its first suspension point.
`stdinError` is the outcome of `session.process.stdin.write` (`some msg` when
the write throws; the catch block then removes the just-attached listener and
resolves with failure, so the session keeps its previous listener set while
its buffers stay cleared). -/
def rSessionExecute (sessions : List (String × RSession)) (sessionId : String)
    (now : Nat) (stdinError : Option String) : RExecStart :=
  match lookupRSession sessions sessionId with
  | none => .immediate ⟨false, none, some "Session not found".toList⟩
  | some s =>
      if s.status ≠ "running" then
        .immediate ⟨false, none, some ("Session status: " ++ s.status).toList⟩
      else
        let s1 : RSession := { s with output := [], stderr := [] }
        match stdinError with
        | some msg => .immediate ⟨false, none, some msg.toList⟩
        | none => .pending { s1 with pendingMarkers := s1.pendingMarkers ++ [endMarker now] }

/-- Resolution of an in-flight `execute` once the accumulated stdout buffer
contains the sentinel: `session.output.split(marker)[0].trim()`, stderr-or-null
as `error`. -/
def rResolveMarker (marker buffer stderrBuf : List Char) : RExecResult :=
  ⟨true, some (jsTrim (splitBefore marker buffer)),
    if stderrBuf = [] then none else some stderrBuf⟩

/-- Resolution of an in-flight `execute` when the timeout fires first: the
partial buffer is returned with a failure. -/
def rResolveTimeout (buffer : List Char) : RExecResult :=
  ⟨false, some buffer, some "Execution timeout".toList⟩

/-! ## Shell session manager (`src/src/plugins/r-plugin/shell-session-manager.js`) -/

structure ShellSession where
  sessionId : String
  sessionType : String
  rPath : String
  status : String
  output : List Char
  stderr : List Char
  hasProcess : Bool
  createdAt : Nat
  hasPrompt : Bool
deriving Repr, DecidableEq

def lookupShellSession (sessions : List (String × ShellSession))
    (sessionId : String) : Option ShellSession :=
  (sessions.reverse.find? (fun e => e.1 == sessionId)).map (·.2)

/-- Result shape of the shell `execute` (`output` is always a string). -/
structure ShellResult where
  success : Bool
  output : List Char
  error : Option (List Char)
deriving Repr, DecidableEq

/-- `createSession(sessionId, options)`. -/
def createShellSession (sessions : List (String × ShellSession))
    (sessionId : String) (sessionType rPath : Option String) (now : Nat) :
    Option (List (String × ShellSession)) :=
  match lookupShellSession sessions sessionId with
  | some _ => none
  | none =>
      some (sessions ++ [(sessionId,
        ⟨sessionId, sessionType.getD "shell", rPath.getD "Rscript", "ready",
          [], [], false, now, false⟩)])

/-- Synchronous outcome of the shell `execute` call. -/
inductive ShellExecStart where
  | immediate (r : ShellResult)
  | pendingManual (s : ShellSession)
  | pendingNormal (s : ShellSession)
deriving Repr, DecidableEq

/-- `execute(sessionId, command, options)` up to its first suspension point.
`platform` is `process.platform`; `manualExecute` is
`options.step.manualExecute === true`; `setupWriteError` is the outcome of
writing the temporary environment-setup script in manual mode. -/
def shellExecute (sessions : List (String × ShellSession)) (sessionId : String)
    (platform : String) (manualExecute : Bool) (setupWriteError : Option String) :
    ShellExecStart :=
  match lookupShellSession sessions sessionId with
  | none => .immediate ⟨false, [], some "Session not found".toList⟩
  | some s =>
      if s.status = "running" then
        .immediate ⟨false, [], some "Session is already running a command".toList⟩
      else if platform = "darwin" ∧ s.sessionType = "shell" ∧ manualExecute then
        match setupWriteError with
        | some msg =>
            .immediate ⟨false, [], some ("Failed to create setup script: " ++ msg).toList⟩
        | none => .pendingManual { s with status := "running", hasPrompt := true }
      else
        .pendingNormal { s with status := "running", output := [], stderr := [] }

/-- Resolution of a manual-mode prompt (`commandPromptResolve(response)`). -/
def shellResolvePrompt (s : ShellSession) (response : String) :
    ShellResult × ShellSession :=
  let s' := { s with status := "ready", hasPrompt := false }
  if response = "success" then
    (⟨true, "Command completed successfully".toList, none⟩, s')
  else if response = "failed" then
    (⟨false, [], some "User reported command failed".toList⟩, s')
  else
    (⟨false, [], some "User skipped step".toList⟩, s')

/-- Resolution of a normal-mode execution on process `close` with exit code
`code`; `stillExists` is whether the session map still holds the session
(it may have been terminated by an abort while the command ran). -/
def shellResolveClose (stillExists : Bool) (s : ShellSession) (code : Int) :
    ShellResult :=
  if stillExists = false then ⟨false, [], some "Session terminated".toList⟩
  else
    let success := code == 0
    ⟨success, s.output,
      if success then none
      else if s.stderr ≠ [] then some s.stderr
      else some (("Command failed with exit code " ++ toString code).toList)⟩

/-- Resolution on a process `error` event (spawn failure). -/
def shellResolveError (stillExists : Bool) (s : ShellSession) (msg : String) :
    ShellResult :=
  if stillExists = false then ⟨false, [], some "Session terminated".toList⟩
  else ⟨false, s.output, some msg.toList⟩

/-- Resolution when the execution timer fires first: the process is killed and
the output captured so far is returned. -/
def shellResolveTimeout (s : ShellSession) (timeoutMs : Nat) : ShellResult :=
  ⟨false, s.output, some ("Command timeout after " ++ toString timeoutMs ++ "ms").toList⟩

theorem endMarker_ne_nil (now : Nat) : endMarker now ≠ [] := by
  intro h
  rw [endMarker, List.append_eq_nil, List.append_eq_nil] at h
  exact absurd h.1.1 (by decide)

/-- A concrete interactive session with one command in flight (one sentinel
listener attached) whose process and status are healthy. -/
def inflightRSession : RSession :=
  ⟨"/usr/bin/R", 8100, "running", "partial".toList, [], [endMarker 5], false⟩

theorem rSession_execute_not_mutexed :
    inflightRSession.pendingMarkers ≠ [] ∧
    inflightRSession.status = "running" ∧
    rSessionExecute [("s1", inflightRSession)] "s1" 7 none =
      .pending ⟨"/usr/bin/R", 8100, "running", [], [],
        [endMarker 5, endMarker 7], false⟩ ∧
    inflightRSession.output ≠ [] := by
  refine ⟨by decide, rfl, ?_, by decide⟩
  rfl

/-- Claim C2, amended: a shell session that is `running` rejects a second
`execute` with an error result and no state change; an interactive-interpreter
session rejects only when absent or not in status `"running"` — with a command
in flight the status is still `"running"`, so a second `execute` is accepted
and clears the output/stderr buffers the in-flight command will be resolved
from. -/
theorem execute_mutual_exclusion_amended
    (ssessions : List (String × ShellSession)) (sid : String) (s : ShellSession)
    (plat : String) (manual : Bool) (swe : Option String)
    (hs : lookupShellSession ssessions sid = some s) (hrun : s.status = "running")
    (rsessions : List (String × RSession)) (rid : String) (t : RSession)
    (now : Nat)
    (ht : lookupRSession rsessions rid = some t) (htrun : t.status = "running") :
    shellExecute ssessions sid plat manual swe =
      .immediate ⟨false, [], some "Session is already running a command".toList⟩ ∧
    rSessionExecute rsessions rid now none =
      .pending { t with
        output := []
        stderr := []
        pendingMarkers := t.pendingMarkers ++ [endMarker now] } := by
  constructor
  · simp [shellExecute, hs, hrun]
  · simp [rSessionExecute, ht, htrun]

theorem execute_mutual_exclusion_amended_witness :
    (lookupShellSession [("sh1", ⟨"sh1", "shell", "Rscript", "running",
        [], [], true, 0, false⟩)] "sh1" =
      some ⟨"sh1", "shell", "Rscript", "running", [], [], true, 0, false⟩ ∧
     lookupRSession [("s1", inflightRSession)] "s1" = some inflightRSession) ∧
    shellExecute [("sh1", ⟨"sh1", "shell", "Rscript", "running",
        [], [], true, 0, false⟩)] "sh1" "linux" false none =
      .immediate ⟨false, [], some "Session is already running a command".toList⟩ ∧
    rSessionExecute [("s1", inflightRSession)] "s1" 7 none =
      .pending { inflightRSession with
        output := []
        stderr := []
        pendingMarkers := inflightRSession.pendingMarkers ++ [endMarker 7] } := by
  refine ⟨⟨rfl, rfl⟩, ?_⟩
  exact execute_mutual_exclusion_amended
    [("sh1", ⟨"sh1", "shell", "Rscript", "running", [], [], true, 0, false⟩)]
    "sh1" ⟨"sh1", "shell", "Rscript", "running", [], [], true, 0, false⟩
    "linux" false none rfl rfl
    [("s1", inflightRSession)] "s1" inflightRSession 7 rfl rfl

/-- The buffer of the C5 counterexample: text with trailing whitespace, then
the sentinel, then the prompt tail the interpreter echoes. -/
def c5buffer : List Char := "a \n".toList ++ endMarker 0 ++ "\n".toList

theorem sentinel_exact_output_counterexample :
    containsSub (endMarker 0) c5buffer = true ∧
    splitBefore (endMarker 0) c5buffer = "a \n".toList ∧
    (rResolveMarker (endMarker 0) c5buffer []).success = true ∧
    (rResolveMarker (endMarker 0) c5buffer []).output = some "a".toList ∧
    some "a".toList ≠ some "a \n".toList := by
  refine ⟨by decide, by decide, rfl, by decide, by decide⟩

/-- Claim C5, amended: when the accumulated stdout contains the sentinel,
`execute` resolves successfully with the text preceding the first occurrence
of the sentinel, with leading/trailing whitespace trimmed, and the sentinel
itself never occurs in the returned output. -/
theorem sentinel_boundary_amended (now : Nat) (buffer stderrBuf : List Char)
    (h : containsSub (endMarker now) buffer = true) :
    (rResolveMarker (endMarker now) buffer stderrBuf).success = true ∧
    (∃ rest, buffer = splitBefore (endMarker now) buffer ++ endMarker now ++ rest) ∧
    containsSub (endMarker now) (splitBefore (endMarker now) buffer) = false ∧
    (rResolveMarker (endMarker now) buffer stderrBuf).output =
      some (jsTrim (splitBefore (endMarker now) buffer)) ∧
    (∃ o, (rResolveMarker (endMarker now) buffer stderrBuf).output = some o ∧
      containsSub (endMarker now) o = false) := by
  have hnil := endMarker_ne_nil now
  have hno := splitBefore_no_occurrence hnil buffer
  refine ⟨rfl, splitBefore_spec buffer h, hno, rfl, ?_⟩
  exact ⟨jsTrim (splitBefore (endMarker now) buffer), rfl, jsTrim_no_occurrence hno⟩

theorem sentinel_boundary_amended_witness :
    containsSub (endMarker 0) c5buffer = true ∧
    (rResolveMarker (endMarker 0) c5buffer []).success = true ∧
    containsSub (endMarker 0) (splitBefore (endMarker 0) c5buffer) = false := by
  refine ⟨by decide, ?_⟩
  have h := sentinel_boundary_amended 0 c5buffer [] (by decide)
  exact ⟨h.1, h.2.2.1⟩

/-- Claim C10: every failure mode of the two `execute` entry points resolves
(not throws) with `success = false` and an error string: missing session,
wrong session status, in-flight rejection (shell), stdin-write error, manual
setup-script write error, process spawn error, and timeout — with the partial
output included where a buffer was being captured. -/
theorem execute_failure_paths_resolve
    (rs1 rs2 rs3 : List (String × RSession)) (id1 id2 id3 : String)
    (s2 s3 : RSession) (now : Nat) (msg : String) (buffer : List Char)
    (ss1 ss2 ss3 : List (String × ShellSession)) (jd1 jd2 jd3 : String)
    (t2 t3 u : ShellSession) (plat : String) (manual : Bool)
    (em spawnMsg : String) (tmo : Nat)
    (h1 : lookupRSession rs1 id1 = none)
    (h2 : lookupRSession rs2 id2 = some s2) (h2s : s2.status ≠ "running")
    (h3 : lookupRSession rs3 id3 = some s3) (h3s : s3.status = "running")
    (g1 : lookupShellSession ss1 jd1 = none)
    (g2 : lookupShellSession ss2 jd2 = some t2) (g2s : t2.status = "running")
    (g3 : lookupShellSession ss3 jd3 = some t3) (g3s : t3.status ≠ "running")
    (g3m : plat = "darwin" ∧ t3.sessionType = "shell" ∧ manual = true) :
    rSessionExecute rs1 id1 now none =
      .immediate ⟨false, none, some "Session not found".toList⟩ ∧
    rSessionExecute rs2 id2 now none =
      .immediate ⟨false, none, some ("Session status: " ++ s2.status).toList⟩ ∧
    rSessionExecute rs3 id3 now (some msg) =
      .immediate ⟨false, none, some msg.toList⟩ ∧
    rResolveTimeout buffer =
      ⟨false, some buffer, some "Execution timeout".toList⟩ ∧
    shellExecute ss1 jd1 plat manual none =
      .immediate ⟨false, [], some "Session not found".toList⟩ ∧
    shellExecute ss2 jd2 plat manual none =
      .immediate ⟨false, [], some "Session is already running a command".toList⟩ ∧
    shellExecute ss3 jd3 plat manual (some em) =
      .immediate ⟨false, [], some ("Failed to create setup script: " ++ em).toList⟩ ∧
    shellResolveError true u spawnMsg = ⟨false, u.output, some spawnMsg.toList⟩ ∧
    shellResolveTimeout u tmo =
      ⟨false, u.output, some ("Command timeout after " ++ toString tmo ++ "ms").toList⟩ ∧
    (shellResolvePrompt u "failed").1 =
      ⟨false, [], some "User reported command failed".toList⟩ := by
  refine ⟨?_, ?_, ?_, rfl, ?_, ?_, ?_, ?_, rfl, ?_⟩
  · simp [rSessionExecute, h1]
  · simp [rSessionExecute, h2, h2s]
  · simp [rSessionExecute, h3, h3s]
  · simp [shellExecute, g1]
  · simp [shellExecute, g2, g2s]
  · simp [shellExecute, g3, g3s, g3m.1, g3m.2.1, g3m.2.2]
  · simp [shellResolveError]
  · simp [shellResolvePrompt]

theorem execute_failure_paths_resolve_witness :
    (lookupRSession [] "a" = none ∧
      lookupRSession [("b", ⟨"R", 1, "crashed", [], [], [], true⟩)] "b" =
        some ⟨"R", 1, "crashed", [], [], [], true⟩ ∧
      lookupShellSession [] "c" = none) ∧
    rSessionExecute [] "a" 0 none =
      .immediate ⟨false, none, some "Session not found".toList⟩ ∧
    rSessionExecute [("b", ⟨"R", 1, "crashed", [], [], [], true⟩)] "b" 0 none =
      .immediate ⟨false, none, some ("Session status: " ++ "crashed").toList⟩ ∧
    shellExecute [] "c" "darwin" true none =
      .immediate ⟨false, [], some "Session not found".toList⟩ := by
  refine ⟨⟨rfl, rfl, rfl⟩, ?_⟩
  have h := execute_failure_paths_resolve
    [] [("b", ⟨"R", 1, "crashed", [], [], [], true⟩)]
    [("d", ⟨"R", 1, "running", [], [], [], true⟩)] "a" "b" "d"
    ⟨"R", 1, "crashed", [], [], [], true⟩ ⟨"R", 1, "running", [], [], [], true⟩
    0 "werr" []
    [] [("e", ⟨"e", "shell", "Rscript", "running", [], [], true, 0, false⟩)]
    [("f", ⟨"f", "shell", "Rscript", "ready", [], [], false, 0, false⟩)]
    "c" "e" "f"
    ⟨"e", "shell", "Rscript", "running", [], [], true, 0, false⟩
    ⟨"f", "shell", "Rscript", "ready", [], [], false, 0, false⟩
    ⟨"g", "shell", "Rscript", "ready", [], [], false, 0, false⟩
    "darwin" true "serr" "spawnerr" 5
    rfl rfl (by decide) rfl rfl rfl rfl rfl rfl (by decide)
    ⟨rfl, rfl, rfl⟩
  exact ⟨h.1, h.2.1, h.2.2.2.2.1⟩

/-! ## Installer workflow engine (`src/src/plugins/plugin-manager.js`,
first `RAVEInstaller` class)

A checklist step.  The YAML field `if` is called `condIf` here and `type` is
`stepType` (`if` is a keyword); absent `needs` is the empty list. -/

structure Step where
  id : String
  name : String
  stepType : String
  run : String
  needs : List String
  condIf : Option String
  required : Bool
  manualExecute : Bool
  manualInstructions : Option String
deriving Repr, DecidableEq

/-- The `stepsMap` built by `steps.forEach(step => stepsMap.set(step.id, step))`:
a later binding for the same id overwrites an earlier one. -/
def stepsLookup (steps : List Step) (stepId : String) : Option Step :=
  steps.reverse.find? (fun s => s.id == stepId)

structure TSortState where
  sorted : List Step
  visited : List String
  visiting : List String
deriving Repr, DecidableEq

inductive VisitRes where
  | ok (st : TSortState)
  | cyc
  | fuelOut
deriving Repr, DecidableEq

/-- Recursion fuel for the DFS.  The nesting depth of `visit` is bounded by
the number of distinct ids ever placed in `visiting`, which all come from the
step ids and the referenced need ids. -/
def sortFuel (steps : List Step) : Nat :=
  (steps.map (·.id) ++ (steps.map (·.needs)).flatten).length + 1

/-- The `for (const depId of step.needs)` loop inside `visit`, parameterised
by the recursive visit function. -/
def visitDepsF (f : String → TSortState → VisitRes) :
    List String → TSortState → VisitRes
  | [], st => .ok st
  | d :: ds, st =>
      match f d st with
      | .ok st2 => visitDepsF f ds st2
      | r => r

/-- The `visit` closure of `topologicalSort`.  Note the faithful translation
of the missing-reference branch: when `stepsMap` has no entry for `stepId`,
the function warns and returns `true` with `stepId` still in `visiting` (the
source never deletes it on that path). -/
def visit (steps : List Step) : Nat → String → TSortState → VisitRes
  | 0, _, _ => .fuelOut
  | fuel + 1, stepId, st =>
      if stepId ∈ st.visited then .ok st
      else if stepId ∈ st.visiting then .cyc
      else
        let st1 : TSortState := { st with visiting := st.visiting ++ [stepId] }
        match stepsLookup steps stepId with
        | none => .ok st1
        | some step =>
            match visitDepsF (fun d st4 => visit steps fuel d st4) step.needs st1 with
            | .ok st2 =>
                .ok { st2 with
                  visiting := st2.visiting.erase stepId
                  visited := st2.visited ++ [stepId]
                  sorted := st2.sorted ++ [step] }
            | r => r

/-- The dependency loop at a given fuel level. -/
def visitDeps (steps : List Step) (fuel : Nat) :
    List String → TSortState → VisitRes :=
  visitDepsF (fun d st => visit steps fuel d st)

inductive SortResult where
  | success (sorted : List Step)
  | failure (error : String)
deriving Repr, DecidableEq

/-- The `for (const step of steps)` loop of `topologicalSort`. -/
def sortGo (steps : List Step) : List Step → TSortState → SortResult
  | [], st => .success st.sorted
  | s :: rest, st =>
      if s.id ∈ st.visited then sortGo steps rest st
      else
        match visit steps (sortFuel steps) s.id st with
        | .ok st2 => sortGo steps rest st2
        | .cyc => .failure ("Circular dependency detected involving step: " ++ s.id)
        | .fuelOut => .failure "fuel exhausted"

/-- `topologicalSort(steps)`. -/
def topologicalSort (steps : List Step) : SortResult :=
  sortGo steps steps ⟨[], [], []⟩

/-- Outcome of the short-lived `sh -c` condition probe: the first event to
fire among process close, process error and the 10-second kill timer. -/
inductive ProbeOutcome where
  | exited (code : Int) (output : String)
  | errored (msg : String)
  | timedOut
deriving Repr, DecidableEq

structure CondResult where
  canSkip : Bool
  output : String
deriving Repr, DecidableEq

/-- `evaluateCondition(step)`: no `if` command means the step is needed; a
zero exit code means skip; a spawn error or the timeout mean cannot skip. -/
def evaluateCondition (probe : String → ProbeOutcome) (step : Step) : CondResult :=
  match step.condIf with
  | none => ⟨false, ""⟩
  | some c =>
      match probe c with
      | .exited code out => ⟨code == 0, out⟩
      | .errored msg => ⟨false, msg⟩
      | .timedOut => ⟨false, "Condition check timeout"⟩

/-- The `executedMap` built by
`executedSteps.forEach(s => { if (s.status) executedMap.set(s.id, s.status) })`. -/
def statusLookup (executed : List (String × String)) (depId : String) :
    Option String :=
  (((executed.filter (fun e => e.2 ≠ "")).reverse).find? (fun e => e.1 == depId)).map (·.2)

structure DepResult where
  satisfied : Bool
  blockedBy : List String
deriving Repr, DecidableEq

/-- `checkDependencies(step, executedSteps)`: a dependency counts as satisfied
iff its recorded status is `success` or `skipped`. -/
def checkDependencies (step : Step) (executed : List (String × String)) : DepResult :=
  if step.needs = [] then ⟨true, []⟩
  else
    let blockedBy := step.needs.filter (fun depId =>
      match statusLookup executed depId with
      | none => true
      | some st => !(st == "success" || st == "skipped"))
    ⟨blockedBy.isEmpty, blockedBy⟩

/-- An external UI signal delivered at a suspension point of the run:
`proceedAnyway()` resolves the pending promise; `abort()` sets the aborted
flag and then resolves it. -/
inductive Signal where
  | proceed
  | abortSignal
deriving Repr, DecidableEq

/-- Mutable run state of `executeInstallation`.  `executed` models the
`executedSteps` array: the steps are pushed by reference, so a later in-place
mutation of a step's `status` is visible through the array — modelled by
`updateStatus`.  `ran` records the ids whose main command was handed to
`executeStep`.  `hung` marks a suspension with no remaining external signal
(in the source the promise then simply never resolves). -/
structure RunState where
  completed : Nat
  failed : Nat
  skipped : Nat
  blocked : Nat
  aborted : Bool
  hung : Bool
  executed : List (String × String)
  ran : List String
deriving Repr, DecidableEq

def initRunState : RunState := ⟨0, 0, 0, 0, false, false, [], []⟩

/-- In-place mutation `step.status = s` seen through `executedSteps`. -/
def updateStatus (executed : List (String × String)) (id status : String) :
    List (String × String) :=
  executed.map (fun e => if e.1 == id then (e.1, status) else e)

/-- The `for (let i = 0; ...)` step loop of `executeInstallation`.  `probe`
gives each condition command's outcome, `exec` the success of each step's
main command as run by `executeStep` through the shell session manager. -/
def runSteps (probe : String → ProbeOutcome) (exec : Step → Bool) :
    List Step → List Signal → RunState → RunState
  | [], _, st => st
  | step :: rest, sigs, st =>
      if st.aborted then st
      else
        let cr := evaluateCondition probe step
        if cr.canSkip then
          runSteps probe exec rest sigs { st with
            skipped := st.skipped + 1
            executed := st.executed ++ [(step.id, "skipped")] }
        else
          let dr := checkDependencies step st.executed
          if dr.satisfied = false then
            let st1 : RunState := { st with
              blocked := st.blocked + 1
              executed := st.executed ++ [(step.id, "blocked")] }
            if step.required then
              match sigs with
              | [] => { st1 with hung := true }
              | sig :: sigs2 =>
                  let st2 := if sig = Signal.abortSignal then
                    { st1 with aborted := true } else st1
                  if st2.aborted then st2
                  else
                    runSteps probe exec rest sigs2 { st2 with
                      skipped := st2.skipped + 1
                      executed := updateStatus st2.executed step.id "skipped" }
            else
              runSteps probe exec rest sigs { st1 with
                skipped := st1.skipped + 1
                executed := updateStatus st1.executed step.id "skipped" }
          else
            let ok := exec step
            let status := if ok then "success" else "failed"
            let st1 : RunState := { st with
              ran := st.ran ++ [step.id]
              executed := st.executed ++ [(step.id, status)] }
            if ok then
              runSteps probe exec rest sigs { st1 with completed := st1.completed + 1 }
            else
              let st2 : RunState := { st1 with failed := st1.failed + 1 }
              if st2.aborted then st2
              else if step.required then
                match sigs with
                | [] => { st2 with hung := true }
                | sig :: sigs2 =>
                    let st3 := if sig = Signal.abortSignal then
                      { st2 with aborted := true } else st2
                    if st3.aborted then st3
                    else
                      runSteps probe exec rest sigs2 { st3 with
                        skipped := st3.skipped + 1
                        executed := updateStatus st3.executed step.id "skipped" }
              else runSteps probe exec rest sigs st2

/-- The run-level result object of `executeInstallation`. -/
structure RunResult where
  success : Bool
  completed : Nat
  failed : Nat
  skipped : Nat
  blocked : Nat
deriving Repr, DecidableEq

inductive InstallOutcome where
  | finished (r : RunResult) (final : RunState)
  | suspendedForever (st : RunState)
  | sortError (e : String) (r : RunResult)
deriving Repr, DecidableEq

/-- `executeInstallation(onProgress)` from the point the checklist is loaded
(the YAML file read is the plan source boundary; the plan is passed in).  A
sort failure reports `{success:false, completed:0, failed:1, skipped:0,
blocked:0}`; otherwise the loop runs and
`success = failed === 0 && !aborted`. -/
def executeInstallation (plan : List Step) (probe : String → ProbeOutcome)
    (exec : Step → Bool) (sigs : List Signal) : InstallOutcome :=
  match topologicalSort plan with
  | .failure e => .sortError e ⟨false, 0, 1, 0, 0⟩
  | .success sorted =>
      let final := runSteps probe exec sorted sigs initRunState
      if final.hung then .suspendedForever final
      else
        .finished ⟨final.failed == 0 && !final.aborted,
          final.completed, final.failed, final.skipped, final.blocked⟩ final

/-! ## The end-to-end scenario of claim C1 -/

def stepA : Step := ⟨"A", "Step A", "shell", "cmdA", [], none, true, false, none⟩
def stepB : Step := ⟨"B", "Step B", "shell", "cmdB", ["A"], none, true, false, none⟩
def stepC : Step := ⟨"C", "Step C", "shell", "cmdC", ["B"], none, false, false, none⟩
def planC1 : List Step := [stepA, stepB, stepC]

/-- No step of the scenario has an `if` condition, so the probe is never
consulted. -/
def probeNone : String → ProbeOutcome := fun _ => ProbeOutcome.errored "no condition"

/-- Step A's command exits 1; every other command exits 0. -/
def execFailA : Step → Bool := fun s => !(s.id == "A")

def finalC1 : RunState :=
  ⟨2, 1, 1, 0, false, false,
    [("A", "skipped"), ("B", "success"), ("C", "success")], ["A", "B", "C"]⟩

theorem required_failure_final_counts_counterexample :
    executeInstallation planC1 probeNone execFailA [Signal.proceed] =
      .finished ⟨false, 2, 1, 1, 0⟩ finalC1 ∧
    finalC1.failed ≠ 0 ∧
    finalC1.executed.all (fun e => !(e.2 == "failed")) = true ∧
    finalC1.aborted = false := by
  exact ⟨by decide, by decide, by decide, rfl⟩

/-- Claim C1, amended: with no external signal the run suspends after step A
with A's status `failed`; after `proceedAnyway()` A's status becomes
`skipped`, B executes (a `skipped` dependency counts as satisfied), then C
executes, and the final result reports `completed:2, skipped:1, blocked:0` —
but the `failed` counter keeps the value 1 accumulated before the override,
and the run is reported successful iff that counter is zero and the run was
not aborted, so this run reports `success:false`. -/
theorem required_failure_resume_amended :
    executeInstallation planC1 probeNone execFailA [] =
      .suspendedForever ⟨0, 1, 0, 0, false, true, [("A", "failed")], ["A"]⟩ ∧
    executeInstallation planC1 probeNone execFailA [Signal.proceed] =
      .finished ⟨false, 2, 1, 1, 0⟩ finalC1 := by
  exact ⟨by decide, by decide⟩

/-! ## The missing-dependency scenarios of claim C3 -/

def stepMissingDep : Step := ⟨"A", "Step A", "shell", "cmdA", ["X"], none, false, false, none⟩

def stepAX : Step := ⟨"A", "Step A", "shell", "cmdA", ["X"], none, false, false, none⟩
def stepBX : Step := ⟨"B", "Step B", "shell", "cmdB", ["X"], none, false, false, none⟩

theorem missing_dependency_counterexample :
    topologicalSort [stepMissingDep] = .success [stepMissingDep] ∧
    checkDependencies stepMissingDep [] = ⟨false, ["X"]⟩ ∧
    executeInstallation [stepMissingDep] probeNone (fun _ => true) [] =
      .finished ⟨true, 0, 0, 1, 1⟩
        ⟨0, 0, 1, 1, false, false, [("A", "skipped")], []⟩ := by
  exact ⟨by decide, by decide, by decide⟩

/-- Claim C3, amended: `topologicalSort` tolerates a missing reference on its
first visit (the referencing step is ordered normally), but leaks the missing
id in `visiting`, so a second step referencing the same missing id fails with
a spurious circular-dependency error; and `checkDependencies` treats a missing
reference as unsatisfied, so the step is marked `blocked` (auto-skipped when
optional) and its main command is not executed. -/
theorem missing_dependency_amended
    (step : Step) (executed : List (String × String)) (d : String)
    (hmem : d ∈ step.needs) (hmiss : statusLookup executed d = none) :
    ((checkDependencies step executed).satisfied = false ∧
      d ∈ (checkDependencies step executed).blockedBy) ∧
    topologicalSort [stepMissingDep] = .success [stepMissingDep] ∧
    topologicalSort [stepAX, stepBX] =
      .failure "Circular dependency detected involving step: B" ∧
    executeInstallation [stepMissingDep] probeNone (fun _ => true) [] =
      .finished ⟨true, 0, 0, 1, 1⟩
        ⟨0, 0, 1, 1, false, false, [("A", "skipped")], []⟩ := by
  refine ⟨?_, by decide, by decide, by decide⟩
  have hne : step.needs ≠ [] := by
    intro h
    rw [h] at hmem
    exact absurd hmem (List.not_mem_nil d)
  have hd : d ∈ step.needs.filter (fun depId =>
      match statusLookup executed depId with
      | none => true
      | some st => !(st == "success" || st == "skipped")) := by
    rw [List.mem_filter]
    exact ⟨hmem, by rw [hmiss]⟩
  constructor
  · simp only [checkDependencies, if_neg hne]
    cases hfil : step.needs.filter (fun depId =>
        match statusLookup executed depId with
        | none => true
        | some st => !(st == "success" || st == "skipped")) with
    | nil => rw [hfil] at hd; exact absurd hd (List.not_mem_nil d)
    | cons x xs => simp [hfil]
  · simp only [checkDependencies, if_neg hne]
    exact hd

theorem missing_dependency_amended_witness :
    ("X" ∈ stepMissingDep.needs ∧ statusLookup [] "X" = none) ∧
    (checkDependencies stepMissingDep []).satisfied = false ∧
    "X" ∈ (checkDependencies stepMissingDep []).blockedBy := by
  refine ⟨⟨by decide, rfl⟩, ?_⟩
  have h := missing_dependency_amended stepMissingDep [] "X" (by decide) rfl
  exact ⟨h.1.1, h.1.2⟩

theorem runSteps_ran_mem (probe : String → ProbeOutcome) (exec : Step → Bool) :
    ∀ (steps : List Step) (sigs : List Signal) (st : RunState) (x : String),
      x ∈ st.ran → x ∈ (runSteps probe exec steps sigs st).ran := by
  intro steps
  induction steps with
  | nil =>
      intro sigs st x hx
      simpa [runSteps] using hx
  | cons step rest ih =>
      intro sigs st x hx
      simp only [runSteps]
      repeat' split
      all_goals first
        | exact hx
        | exact ih _ _ x hx
        | exact List.mem_append_left _ hx
        | exact ih _ _ x (List.mem_append_left _ hx)

/-- Claim C7: if a step's `if` condition probe errors (spawn failure) or hits
the 10-second timeout, the evaluation result is "cannot skip", so with its
dependencies satisfied the step's main command is still executed; the probe
failure surfaces only as the condition output, never as a workflow error. -/
theorem failopen_condition_probes (probe : String → ProbeOutcome)
    (exec : Step → Bool) (step : Step) (rest : List Step) (sigs : List Signal)
    (st : RunState) (c m : String)
    (hcond : step.condIf = some c)
    (houtcome : probe c = .errored m ∨ probe c = .timedOut)
    (hnab : st.aborted = false)
    (hdeps : (checkDependencies step st.executed).satisfied = true) :
    (evaluateCondition probe step).canSkip = false ∧
    step.id ∈ (runSteps probe exec (step :: rest) sigs st).ran := by
  have hskip : (evaluateCondition probe step).canSkip = false := by
    rcases houtcome with h | h <;> simp [evaluateCondition, hcond, h]
  refine ⟨hskip, ?_⟩
  simp only [runSteps, hnab, hskip, hdeps]
  repeat' split
  all_goals first
    | exact List.mem_append_right _ (by simp)
    | exact runSteps_ran_mem probe exec _ _ _ _ (List.mem_append_right _ (by simp))
    | simp_all

def condStep : Step :=
  ⟨"P", "Probe step", "shell", "cmdP", [], some "probe-cmd", false, false, none⟩

def probeErr : String → ProbeOutcome := fun _ => ProbeOutcome.errored "spawn failed"

theorem failopen_condition_probes_witness :
    (condStep.condIf = some "probe-cmd" ∧
      probeErr "probe-cmd" = .errored "spawn failed" ∧
      initRunState.aborted = false ∧
      (checkDependencies condStep initRunState.executed).satisfied = true) ∧
    (evaluateCondition probeErr condStep).canSkip = false ∧
    condStep.id ∈ (runSteps probeErr (fun _ => true) [condStep] [] initRunState).ran := by
  refine ⟨⟨rfl, rfl, rfl, by decide⟩, ?_⟩
  exact failopen_condition_probes probeErr (fun _ => true) condStep [] []
    initRunState "probe-cmd" "spawn failed" rfl (Or.inl rfl) rfl (by decide)

/-! ## Topological sort: the needs graph and the cycle counterexample -/

/-- The needs edge relation of a plan: `u` needs `v` (looked up through the
same `stepsMap` the sort uses). -/
def edgeB (steps : List Step) (u v : String) : Bool :=
  match stepsLookup steps u with
  | some s => s.needs.contains v
  | none => false

def stepCyA : Step := ⟨"A", "Step A", "shell", "cmdA", ["B"], none, false, false, none⟩
def stepCyB : Step := ⟨"B", "Step B", "shell", "cmdB", ["C"], none, false, false, none⟩
def stepCyC : Step := ⟨"C", "Step C", "shell", "cmdC", ["B"], none, false, false, none⟩
def planCycle : List Step := [stepCyA, stepCyB, stepCyC]

theorem edge_planCycle_target {u v : String} (h : edgeB planCycle u v = true) :
    v = "B" ∨ v = "C" := by
  unfold edgeB at h
  cases hl : stepsLookup planCycle u with
  | none => rw [hl] at h; exact absurd h (by simp)
  | some s =>
      rw [hl] at h
      have hs : s ∈ planCycle.reverse := List.mem_of_find?_eq_some hl
      have hv : v ∈ s.needs := by simpa using h
      simp only [planCycle, List.reverse_cons, List.reverse_nil] at hs
      simp at hs
      rcases hs with hs | hs | hs <;> subst hs <;> simp_all [stepCyA, stepCyB, stepCyC]

theorem cycle_error_names_offcycle_counterexample :
    topologicalSort planCycle =
      .failure ("Circular dependency detected involving step: " ++ "A") ∧
    Relation.TransGen (fun u v => edgeB planCycle u v = true) "B" "B" ∧
    ¬ Relation.TransGen (fun u v => edgeB planCycle u v = true) "A" "A" := by
  refine ⟨by decide, ?_, ?_⟩
  · have e1 : edgeB planCycle "B" "C" = true := by decide
    have e2 : edgeB planCycle "C" "B" = true := by decide
    exact Relation.TransGen.tail (Relation.TransGen.single e1) e2
  · intro h
    cases h with
    | single e =>
        rcases edge_planCycle_target e with h | h <;> exact absurd h (by decide)
    | tail hT e =>
        rcases edge_planCycle_target e with h | h <;> exact absurd h (by decide)

/-! ## Topological sort: general correctness infrastructure -/

/-- Every id the DFS can ever place in `visiting`. -/
def allIds (steps : List Step) : List String :=
  (steps.map (·.id) ++ (steps.map (·.needs)).flatten).dedup

/-- Number of ids the DFS may still push onto the `visiting` stack. -/
def sortMeasure (steps : List Step) (st : TSortState) : Nat :=
  ((allIds steps).filter (fun x => decide (x ∉ st.visiting))).length

/-- Every step already emitted has all its present needs emitted earlier. -/
def SortedClosed (steps : List Step) (l : List Step) : Prop :=
  ∀ l1 s l2, l = l1 ++ s :: l2 → ∀ d ∈ s.needs,
    (stepsLookup steps d).isSome = true → d ∈ l1.map (·.id)

/-- Invariant of the DFS state. -/
def StateOk (steps : List Step) (st : TSortState) : Prop :=
  st.visited = st.sorted.map (·.id) ∧
  st.visiting.Nodup ∧
  (∀ v ∈ st.visiting, v ∈ allIds steps) ∧
  (st.sorted.map (·.id)).Nodup ∧
  (∀ s ∈ st.sorted, stepsLookup steps s.id = some s) ∧
  SortedClosed steps st.sorted

/-- How a DFS state evolves across a successful `visit`. -/
def Extends (st st' : TSortState) : Prop :=
  (∃ t, st'.sorted = st.sorted ++ t) ∧
  (∃ t, st'.visited = st.visited ++ t) ∧
  (∀ x ∈ st.visiting, x ∈ st'.visiting) ∧
  (∀ x ∈ st'.visited, x ∈ st.visited ∨ x ∉ st.visiting)

theorem Extends.rfl {st : TSortState} : Extends st st :=
  ⟨⟨[], by simp⟩, ⟨[], by simp⟩, fun _ hx => hx, fun _ hx => Or.inl hx⟩

theorem Extends.trans {st1 st2 st3 : TSortState} (h12 : Extends st1 st2)
    (h23 : Extends st2 st3) : Extends st1 st3 := by
  obtain ⟨⟨t1, ht1⟩, ⟨u1, hu1⟩, hv1, hw1⟩ := h12
  obtain ⟨⟨t2, ht2⟩, ⟨u2, hu2⟩, hv2, hw2⟩ := h23
  refine ⟨⟨t1 ++ t2, by rw [ht2, ht1, List.append_assoc]⟩,
    ⟨u1 ++ u2, by rw [hu2, hu1, List.append_assoc]⟩,
    fun x hx => hv2 x (hv1 x hx), ?_⟩
  intro x hx
  rcases hw2 x hx with hx2 | hx2
  · exact hw1 x hx2
  · right
    intro hcon
    exact hx2 (hv1 x hcon)

theorem mem_visited_of_extends {st st' : TSortState} (h : Extends st st')
    {x : String} (hx : x ∈ st.visited) : x ∈ st'.visited := by
  obtain ⟨_, ⟨u, hu⟩, _, _⟩ := h
  rw [hu]
  exact List.mem_append_left _ hx

theorem length_lt_of_sublist_of_mem {α : Type} {a : α} :
    ∀ {s t : List α}, s.Sublist t → a ∈ t → a ∉ s → s.length < t.length := by
  intro s t hsub
  induction hsub with
  | slnil => intro ha _; exact absurd ha (List.not_mem_nil a)
  | cons b hsub ih =>
      intro ha hna
      rcases List.mem_cons.mp ha with hab | ha2
      · calc _ ≤ _ := hsub.length_le
          _ < _ := Nat.lt_succ_self _
      · exact Nat.lt_succ_of_lt (ih ha2 hna)
  | cons₂ b hsub ih =>
      intro ha hna
      have hne : a ≠ b := fun hab => hna (hab ▸ List.mem_cons_self _ _)
      have ha2 : a ∈ _ := (List.mem_cons.mp ha).resolve_left hne
      have hna2 : a ∉ _ := fun hcon => hna (List.mem_cons_of_mem _ hcon)
      simpa using Nat.succ_lt_succ (ih ha2 hna2)

theorem sortMeasure_le_of_superset {steps : List Step} {st st' : TSortState}
    (h : ∀ x ∈ st.visiting, x ∈ st'.visiting) :
    sortMeasure steps st' ≤ sortMeasure steps st := by
  apply List.Sublist.length_le
  apply List.monotone_filter_right
  intro a ha
  rw [decide_eq_true_iff] at ha ⊢
  intro hcon
  exact ha (h a hcon)

theorem sortMeasure_push_lt {steps : List Step} {st : TSortState} {id : String}
    (hid : id ∈ allIds steps) (hnv : id ∉ st.visiting) :
    sortMeasure steps { st with visiting := st.visiting ++ [id] } <
      sortMeasure steps st := by
  have hsub : ((allIds steps).filter (fun x => decide (x ∉ st.visiting ++ [id]))).Sublist
      ((allIds steps).filter (fun x => decide (x ∉ st.visiting))) := by
    apply List.monotone_filter_right
    intro a ha
    rw [decide_eq_true_iff] at ha ⊢
    intro hcon
    exact ha (List.mem_append_left _ hcon)
  have hmem : id ∈ (allIds steps).filter (fun x => decide (x ∉ st.visiting)) := by
    rw [List.mem_filter]
    exact ⟨hid, by simpa using hnv⟩
  have hnmem : id ∉ (allIds steps).filter
      (fun x => decide (x ∉ st.visiting ++ [id])) := by
    rw [List.mem_filter]
    intro ⟨_, hcon⟩
    rw [decide_eq_true_iff] at hcon
    exact hcon (by simp)
  exact length_lt_of_sublist_of_mem hsub hmem hnmem

theorem nodup_append_fresh_gen {α : Type} {l : List α} {q : α} (hu : l.Nodup)
    (hq : q ∉ l) : (l ++ [q]).Nodup := by
  refine hu.append (List.nodup_singleton q) ?_
  intro a ha hqa
  simp at hqa
  subst hqa
  exact hq ha

theorem append_singleton_decomp {α : Type} {old l1 l2 : List α} {s x : α}
    (h : old ++ [x] = l1 ++ s :: l2) :
    (l2 = [] ∧ s = x ∧ l1 = old) ∨ ∃ l2b, old = l1 ++ s :: l2b ∧ l2 = l2b ++ [x] := by
  cases hl2 : l2.reverse with
  | nil =>
      have h2 : l2 = [] := by simpa using congrArg List.reverse hl2
      subst h2
      left
      have := List.append_inj' h rfl
      simp at this
      exact ⟨rfl, this.2.symm, this.1.symm⟩
  | cons y ys =>
      have h2 : l2 = ys.reverse ++ [y] := by
        have := congrArg List.reverse hl2
        simpa using this
      subst h2
      right
      have h3 : old ++ [x] = (l1 ++ s :: ys.reverse) ++ [y] := by
        rw [h]
        simp
      have h4 := List.append_inj' h3 rfl
      simp only [List.cons.injEq, and_true] at h4
      refine ⟨ys.reverse, h4.1, ?_⟩
      rw [h4.2]

theorem stepsLookup_mem {steps : List Step} {id : String} {s : Step}
    (h : stepsLookup steps id = some s) : s ∈ steps ∧ s.id = id := by
  constructor
  · have := List.mem_of_find?_eq_some h
    simpa [List.mem_reverse] using this
  · have := List.find?_some h
    simpa using this

theorem mem_allIds_of_step {steps : List Step} {s : Step} (h : s ∈ steps) :
    s.id ∈ allIds steps := by
  rw [allIds, List.mem_dedup]
  exact List.mem_append_left _ (List.mem_map_of_mem _ h)

theorem mem_allIds_of_need {steps : List Step} {s : Step} {d : String}
    (hs : s ∈ steps) (hd : d ∈ s.needs) : d ∈ allIds steps := by
  rw [allIds, List.mem_dedup]
  apply List.mem_append_right
  rw [List.mem_flatten]
  exact ⟨s.needs, List.mem_map_of_mem _ hs, hd⟩

/-- What a successful `visit` at a given fuel guarantees, together with the
exclusion of fuel exhaustion. -/
def VisitOkProp (steps : List Step) (fuel : Nat) : Prop :=
  ∀ id st, id ∈ allIds steps → StateOk steps st → sortMeasure steps st < fuel →
    visit steps fuel id st ≠ .fuelOut ∧
    ∀ st', visit steps fuel id st = .ok st' →
      StateOk steps st' ∧ Extends st st' ∧
      ((stepsLookup steps id).isSome = true → id ∈ st'.visited)

/-- The same for the dependency loop at a given fuel. -/
def VisitDepsOkProp (steps : List Step) (fuel : Nat) : Prop :=
  ∀ ds st, (∀ d ∈ ds, d ∈ allIds steps) → StateOk steps st →
    sortMeasure steps st < fuel →
    visitDeps steps fuel ds st ≠ .fuelOut ∧
    ∀ st', visitDeps steps fuel ds st = .ok st' →
      StateOk steps st' ∧ Extends st st' ∧
      ∀ d ∈ ds, (stepsLookup steps d).isSome = true → d ∈ st'.visited

theorem visit_general (steps : List Step) :
    ∀ fuel, VisitOkProp steps fuel ∧ VisitDepsOkProp steps fuel := by
  intro fuel
  induction fuel with
  | zero =>
      constructor
      · intro id st _ _ hm
        exact absurd hm (Nat.not_lt_zero _)
      · intro ds st _ _ hm
        exact absurd hm (Nat.not_lt_zero _)
  | succ n ih =>
      have hV : VisitOkProp steps (n + 1) := by
        intro id st hid hok hm
        by_cases h1 : id ∈ st.visited
        · constructor
          · simp [visit, h1]
          · intro st' hst'
            simp only [visit, if_pos h1] at hst'
            cases hst'
            exact ⟨hok, Extends.rfl, fun _ => h1⟩
        · by_cases h2 : id ∈ st.visiting
          · constructor
            · simp [visit, h1, h2]
            · intro st' hst'
              simp only [visit, if_neg h1, if_pos h2] at hst'
              exact absurd hst' (by simp)
          · obtain ⟨hsync, hvnd, hvall, hsnd, hfrom, hclosed⟩ := hok
            have hok1 : StateOk steps { st with visiting := st.visiting ++ [id] } := by
              refine ⟨hsync, nodup_append_fresh_gen hvnd h2, ?_, hsnd, hfrom, hclosed⟩
              intro v hv
              rcases List.mem_append.mp hv with hv | hv
              · exact hvall v hv
              · simp at hv
                subst hv
                exact hid
            have hm1 : sortMeasure steps { st with visiting := st.visiting ++ [id] } < n := by
              have := @sortMeasure_push_lt steps st id hid h2
              omega
            cases hlk : stepsLookup steps id with
            | none =>
                constructor
                · simp [visit, h1, h2, hlk]
                · intro st' hst'
                  simp only [visit, if_neg h1, if_neg h2, hlk] at hst'
                  cases hst'
                  refine ⟨hok1, ?_, ?_⟩
                  · refine ⟨⟨[], by simp⟩, ⟨[], by simp⟩, ?_, ?_⟩
                    · intro x hx
                      exact List.mem_append_left _ hx
                    · intro x hx
                      exact Or.inl hx
                  · intro hcon
                    exact absurd hcon (by simp)
            | some step =>
                obtain ⟨hstepmem, hstepid⟩ := stepsLookup_mem hlk
                have hds : ∀ d ∈ step.needs, d ∈ allIds steps :=
                  fun d hd => mem_allIds_of_need hstepmem hd
                have hD := (ih.2) step.needs { st with visiting := st.visiting ++ [id] }
                  hds hok1 hm1
                cases hvd : visitDeps steps n step.needs
                    { st with visiting := st.visiting ++ [id] } with
                | fuelOut => exact absurd hvd hD.1
                | cyc =>
                    constructor
                    · simp [visit, h1, h2, hlk, visitDeps] at hvd ⊢
                      rw [hvd]
                      simp
                    · intro st' hst'
                      simp only [visit, if_neg h1, if_neg h2, hlk] at hst'
                      simp only [visitDeps] at hvd
                      rw [hvd] at hst'
                      exact absurd hst' (by simp)
                | ok st2 =>
                    obtain ⟨hok2, hext12, hpost2⟩ := hD.2 st2 hvd
                    obtain ⟨hsync2, hvnd2, hvall2, hsnd2, hfrom2, hclosed2⟩ := hok2
                    have hidnotvis2 : id ∉ st2.visited := by
                      intro hcon
                      rcases hext12.2.2.2 id hcon with hc | hc
                      · exact h1 hc
                      · exact hc (List.mem_append_right _ (by simp))
                    constructor
                    · simp only [visit, if_neg h1, if_neg h2, hlk, visitDeps] at hvd ⊢
                      rw [hvd]
                      simp
                    · intro st' hst'
                      simp only [visit, if_neg h1, if_neg h2, hlk] at hst'
                      simp only [visitDeps] at hvd
                      rw [hvd] at hst'
                      cases hst'
                      refine ⟨⟨?_, ?_, ?_, ?_, ?_, ?_⟩, ?_, ?_⟩
                      · simp only [List.map_append, List.map_cons, List.map_nil]
                        rw [hsync2, hstepid]
                      · exact hvnd2.erase id
                      · intro v hv
                        exact hvall2 v (List.mem_of_mem_erase hv)
                      · simp only [List.map_append, List.map_cons, List.map_nil]
                        apply nodup_append_fresh_gen hsnd2
                        rw [hstepid, ← hsync2]
                        exact hidnotvis2
                      · intro s hs
                        rcases List.mem_append.mp hs with hs | hs
                        · exact hfrom2 s hs
                        · simp at hs
                          subst hs
                          rw [hstepid]
                          exact hlk
                      · intro l1 s l2 hdec d hd hdsome
                        rcases append_singleton_decomp hdec with ⟨_, hseq, hl1⟩ | ⟨l2b, hold, _⟩
                        · subst hseq
                          subst hl1
                          rw [← hsync2]
                          exact hpost2 d hd hdsome
                        · exact hclosed2 l1 s l2b hold d hd hdsome
                      · obtain ⟨⟨ts, hts⟩, ⟨tv, htv⟩, hvis12, horig12⟩ := hext12
                        refine ⟨⟨ts ++ [step], by simp [hts]⟩,
                          ⟨tv ++ [id], by simp [htv]⟩, ?_, ?_⟩
                        · intro x hx
                          have hx1 : x ∈ st2.visiting :=
                            hvis12 x (List.mem_append_left _ hx)
                          have hne : x ≠ id := fun hcon => h2 (hcon ▸ hx)
                          exact (List.mem_erase_of_ne hne).mpr hx1
                        · intro x hx
                          rcases List.mem_append.mp hx with hx | hx
                          · rcases horig12 x hx with hc | hc
                            · exact Or.inl hc
                            · right
                              intro hcon
                              exact hc (List.mem_append_left _ hcon)
                          · simp at hx
                            subst hx
                            exact Or.inr h2
                      · intro _
                        exact List.mem_append_right _ (by simp)
      refine ⟨hV, ?_⟩
      intro ds
      induction ds with
      | nil =>
          intro st hds hok hm
          constructor
          · simp [visitDeps, visitDepsF]
          · intro st' hst'
            simp only [visitDeps, visitDepsF] at hst'
            cases hst'
            exact ⟨hok, Extends.rfl, by intro d hd; exact absurd hd (List.not_mem_nil d)⟩
      | cons d ds ihds =>
          intro st hds hok hm
          have hVd := hV d st (hds d (List.mem_cons_self _ _)) hok hm
          cases hv : visit steps (n + 1) d st with
          | fuelOut => exact absurd hv hVd.1
          | cyc =>
              constructor
              · simp only [visitDeps, visitDepsF]
                rw [hv]
                simp
              · intro st' hst'
                simp only [visitDeps, visitDepsF] at hst'
                rw [hv] at hst'
                exact absurd hst' (by simp)
          | ok st2 =>
              obtain ⟨hok2, hext2, hpost2⟩ := hVd.2 st2 hv
              have hm2 : sortMeasure steps st2 < n + 1 := by
                have := @sortMeasure_le_of_superset steps st st2 hext2.2.2.1
                omega
              have hds2 : ∀ x ∈ ds, x ∈ allIds steps :=
                fun x hx => hds x (List.mem_cons_of_mem _ hx)
              have htail := ihds st2 hds2 hok2 hm2
              constructor
              · simp only [visitDeps, visitDepsF]
                rw [hv]
                simpa [visitDeps] using htail.1
              · intro st' hst'
                simp only [visitDeps, visitDepsF] at hst'
                rw [hv] at hst'
                have hst2 : visitDeps steps (n + 1) ds st2 = .ok st' := hst'
                obtain ⟨hok3, hext3, hpost3⟩ := htail.2 st' hst2
                refine ⟨hok3, Extends.trans hext2 hext3, ?_⟩
                intro x hx hxsome
                rcases List.mem_cons.mp hx with hx | hx
                · subst hx
                  exact mem_visited_of_extends hext3 (hpost2 hxsome)
                · exact hpost3 x hx hxsome

theorem sortMeasure_lt_sortFuel (steps : List Step) (st : TSortState) :
    sortMeasure steps st < sortFuel steps := by
  have h1 : sortMeasure steps st ≤ (allIds steps).length :=
    List.length_filter_le _ _
  have h2 : (allIds steps).length ≤
      (steps.map (·.id) ++ (steps.map (·.needs)).flatten).length :=
    (List.dedup_sublist _).length_le
  unfold sortFuel
  omega

theorem stepsLookup_isSome_of_mem {steps : List Step} {s : Step} (h : s ∈ steps) :
    (stepsLookup steps s.id).isSome = true := by
  rw [stepsLookup, List.find?_isSome]
  exact ⟨s, List.mem_reverse.mpr h, by simp⟩

theorem initState_ok (steps : List Step) : StateOk steps ⟨[], [], []⟩ := by
  refine ⟨rfl, List.nodup_nil, ?_, by simp, ?_, ?_⟩
  · intro v hv
    exact absurd hv (List.not_mem_nil v)
  · intro s hs
    exact absurd hs (List.not_mem_nil s)
  · intro l1 s l2 hdec
    exact absurd hdec (by simp)

theorem sortGo_props (steps : List Step) : ∀ (remaining : List Step) (st : TSortState),
    StateOk steps st → (∀ s ∈ remaining, s ∈ steps) →
    (∀ sorted', sortGo steps remaining st = .success sorted' →
      ∃ stf : TSortState, stf.sorted = sorted' ∧ StateOk steps stf ∧
        Extends st stf ∧ ∀ s ∈ remaining, s.id ∈ stf.visited) ∧
    (∀ e, sortGo steps remaining st = .failure e →
      ∃ s, s ∈ remaining ∧
        e = "Circular dependency detected involving step: " ++ s.id) := by
  intro remaining
  induction remaining with
  | nil =>
      intro st hok hmem
      constructor
      · intro sorted' hs
        simp only [sortGo] at hs
        cases hs
        exact ⟨st, rfl, hok, Extends.rfl, by intro s hs; exact absurd hs (List.not_mem_nil s)⟩
      · intro e he
        simp only [sortGo] at he
        exact absurd he (by simp)
  | cons s rest ih =>
      intro st hok hmem
      have hmemrest : ∀ x ∈ rest, x ∈ steps :=
        fun x hx => hmem x (List.mem_cons_of_mem _ hx)
      by_cases hsv : s.id ∈ st.visited
      · have hgo : sortGo steps (s :: rest) st = sortGo steps rest st := by
          simp [sortGo, hsv]
        constructor
        · intro sorted' hs
          rw [hgo] at hs
          obtain ⟨stf, h1, h2, h3, h4⟩ := (ih st hok hmemrest).1 sorted' hs
          refine ⟨stf, h1, h2, h3, ?_⟩
          intro x hx
          rcases List.mem_cons.mp hx with hx | hx
          · subst hx
            exact mem_visited_of_extends h3 hsv
          · exact h4 x hx
        · intro e he
          rw [hgo] at he
          obtain ⟨t, ht1, ht2⟩ := (ih st hok hmemrest).2 e he
          exact ⟨t, List.mem_cons_of_mem _ ht1, ht2⟩
      · have hVg := (visit_general steps (sortFuel steps)).1 s.id st
          (mem_allIds_of_step (hmem s (List.mem_cons_self _ _))) hok
          (sortMeasure_lt_sortFuel steps st)
        cases hv : visit steps (sortFuel steps) s.id st with
        | fuelOut => exact absurd hv hVg.1
        | cyc =>
            have hgo : sortGo steps (s :: rest) st =
                .failure ("Circular dependency detected involving step: " ++ s.id) := by
              simp [sortGo, hsv, hv]
            constructor
            · intro sorted' hs
              rw [hgo] at hs
              exact absurd hs (by simp)
            · intro e he
              rw [hgo] at he
              simp only [SortResult.failure.injEq] at he
              exact ⟨s, List.mem_cons_self _ _, he.symm⟩
        | ok st2 =>
            obtain ⟨hok2, hext2, hpost2⟩ := hVg.2 st2 hv
            have hgo : sortGo steps (s :: rest) st = sortGo steps rest st2 := by
              simp [sortGo, hsv, hv]
            constructor
            · intro sorted' hs
              rw [hgo] at hs
              obtain ⟨stf, h1, h2, h3, h4⟩ := (ih st2 hok2 hmemrest).1 sorted' hs
              refine ⟨stf, h1, h2, Extends.trans hext2 h3, ?_⟩
              intro x hx
              rcases List.mem_cons.mp hx with hx | hx
              · rw [hx]
                exact mem_visited_of_extends h3
                  (hpost2 (stepsLookup_isSome_of_mem (hmem s (List.mem_cons_self _ _))))
              · exact h4 x hx
            · intro e he
              rw [hgo] at he
              obtain ⟨t, ht1, ht2⟩ := (ih st2 hok2 hmemrest).2 e he
              exact ⟨t, List.mem_cons_of_mem _ ht1, ht2⟩

def posIn : List String → String → Nat
  | [], _ => 0
  | x :: xs, a => if x = a then 0 else posIn xs a + 1

theorem posIn_lt_length {a : String} :
    ∀ {l : List String}, a ∈ l → posIn l a < l.length := by
  intro l
  induction l with
  | nil => intro h; exact absurd h (List.not_mem_nil a)
  | cons x xs ih =>
      intro h
      by_cases hx : x = a
      · simp [posIn, hx]
      · have hmem : a ∈ xs := (List.mem_cons.mp h).resolve_left fun hc => hx hc.symm
        simp only [posIn, if_neg hx, List.length_cons]
        exact Nat.succ_lt_succ (ih hmem)

theorem posIn_append_left {a : String} :
    ∀ {l1 : List String} (l2 : List String), a ∈ l1 →
      posIn (l1 ++ l2) a = posIn l1 a := by
  intro l1
  induction l1 with
  | nil => intro l2 h; exact absurd h (List.not_mem_nil a)
  | cons x xs ih =>
      intro l2 h
      by_cases hx : x = a
      · simp [posIn, hx]
      · have hmem : a ∈ xs := (List.mem_cons.mp h).resolve_left fun hc => hx hc.symm
        simp only [List.cons_append, posIn, if_neg hx]
        exact congrArg (fun k => k + 1) (ih l2 hmem)

theorem posIn_append_notmem {a : String} :
    ∀ {l1 : List String} (l2 : List String), a ∉ l1 →
      posIn (l1 ++ a :: l2) a = l1.length := by
  intro l1
  induction l1 with
  | nil => intro l2 _; simp [posIn]
  | cons x xs ih =>
      intro l2 h
      have hx : x ≠ a := fun hc => h (hc ▸ List.mem_cons_self _ _)
      have hxs : a ∉ xs := fun hc => h (List.mem_cons_of_mem _ hc)
      simp only [List.cons_append, posIn, if_neg hx, List.length_cons]
      exact congrArg (fun k => k + 1) (ih l2 hxs)

theorem edgeB_src_isSome {steps : List Step} {u v : String}
    (h : edgeB steps u v = true) : (stepsLookup steps u).isSome = true := by
  unfold edgeB at h
  cases hlk : stepsLookup steps u with
  | none => rw [hlk] at h; exact absurd h (by simp)
  | some s => simp [hlk]

theorem transgen_src_isSome {steps : List Step} : ∀ {u v : String},
    Relation.TransGen (fun a b => edgeB steps a b = true) u v →
    (stepsLookup steps u).isSome = true := by
  intro u v h
  induction h with
  | single e => exact edgeB_src_isSome e
  | tail _ _ ih => exact ih

theorem sorted_edge_rank (steps : List Step) (stf : TSortState)
    (hok : StateOk steps stf) (hall : ∀ s ∈ steps, s.id ∈ stf.visited) :
    ∀ u v, edgeB steps u v = true → (stepsLookup steps v).isSome = true →
      posIn (stf.sorted.map (·.id)) v < posIn (stf.sorted.map (·.id)) u := by
  intro u v he hv
  obtain ⟨hsync, _, _, hsnd, hfrom, hclosed⟩ := hok
  unfold edgeB at he
  cases hlk : stepsLookup steps u with
  | none => rw [hlk] at he; exact absurd he (by simp)
  | some su =>
      rw [hlk] at he
      have hvmem : v ∈ su.needs := by simpa using he
      obtain ⟨hsumem, hsuid⟩ := stepsLookup_mem hlk
      have hidin : su.id ∈ stf.visited := hall su hsumem
      rw [hsync] at hidin
      obtain ⟨t, htmem, htid⟩ := List.mem_map.mp hidin
      have hlkt : stepsLookup steps t.id = some t := hfrom t htmem
      have hteq : t = su := by
        rw [htid, hsuid, hlk] at hlkt
        exact ((Option.some.injEq _ _).mp hlkt).symm
      obtain ⟨l1, l2, hdecomp⟩ := List.append_of_mem htmem
      have hd : v ∈ l1.map (·.id) :=
        hclosed l1 t l2 hdecomp v (hteq ▸ hvmem) hv
      have hids : stf.sorted.map (·.id) = l1.map (·.id) ++ t.id :: l2.map (·.id) := by
        rw [hdecomp]
        simp
      have hnotin : t.id ∉ l1.map (·.id) := by
        rw [hids] at hsnd
        intro hcon
        obtain ⟨_, _, hdisj⟩ := List.nodup_append.mp hsnd
        exact hdisj hcon (List.mem_cons_self _ _)
      have hut : u = t.id := by rw [htid, hsuid]
      have hu : posIn (stf.sorted.map (·.id)) u = (l1.map (·.id)).length := by
        rw [hut, hids]
        exact posIn_append_notmem _ hnotin
      have hvlt : posIn (stf.sorted.map (·.id)) v < (l1.map (·.id)).length := by
        rw [hids, posIn_append_left _ hd]
        exact posIn_lt_length hd
      omega

theorem transgen_rank (steps : List Step) (stf : TSortState)
    (hok : StateOk steps stf) (hall : ∀ s ∈ steps, s.id ∈ stf.visited) :
    ∀ u v, Relation.TransGen (fun a b => edgeB steps a b = true) u v →
      (stepsLookup steps v).isSome = true →
      posIn (stf.sorted.map (·.id)) v < posIn (stf.sorted.map (·.id)) u := by
  intro u v h
  induction h with
  | single e => exact sorted_edge_rank steps stf hok hall _ _ e
  | tail hT e ih =>
      intro hv
      have hb := edgeB_src_isSome e
      exact Nat.lt_trans (sorted_edge_rank steps stf hok hall _ _ e hv) (ih hb)

theorem topsort_cycle_fails (steps : List Step) (c : String)
    (hcyc : Relation.TransGen (fun a b => edgeB steps a b = true) c c) :
    ∃ e s, topologicalSort steps = .failure e ∧ s ∈ steps ∧
      e = "Circular dependency detected involving step: " ++ s.id := by
  have hprops := sortGo_props steps steps ⟨[], [], []⟩ (initState_ok steps)
    (fun s hs => hs)
  cases hres : topologicalSort steps with
  | success sorted' =>
      exfalso
      obtain ⟨stf, _, hok, _, hall⟩ := hprops.1 sorted' hres
      have hcsome : (stepsLookup steps c).isSome = true := transgen_src_isSome hcyc
      exact absurd (transgen_rank steps stf hok hall c c hcyc hcsome)
        (Nat.lt_irrefl _)
  | failure e =>
      obtain ⟨s, hs1, hs2⟩ := hprops.2 e hres
      exact ⟨e, s, rfl, hs1, hs2⟩

theorem edgeB_of_need {steps : List Step} {u : String} {s : Step} {d : String}
    (hlk : stepsLookup steps u = some s) (hd : d ∈ s.needs) :
    edgeB steps u d = true := by
  unfold edgeB
  rw [hlk]
  simpa using hd

def VisitCompleteProp (steps : List Step) (fuel : Nat) : Prop :=
  ∀ id st, id ∈ allIds steps → StateOk steps st → sortMeasure steps st < fuel →
    (∀ v ∈ st.visiting, Relation.TransGen (fun a b => edgeB steps a b = true) v id) →
    (stepsLookup steps id).isSome = true →
    ∃ st', visit steps fuel id st = .ok st' ∧ st'.visiting = st.visiting

def VisitDepsCompleteProp (steps : List Step) (fuel : Nat) : Prop :=
  ∀ ds st, (∀ d ∈ ds, d ∈ allIds steps ∧ (stepsLookup steps d).isSome = true ∧
      ∀ v ∈ st.visiting, Relation.TransGen (fun a b => edgeB steps a b = true) v d) →
    StateOk steps st → sortMeasure steps st < fuel →
    ∃ st', visitDeps steps fuel ds st = .ok st' ∧ st'.visiting = st.visiting

theorem visit_complete (steps : List Step)
    (HC : ∀ s ∈ steps, ∀ d ∈ s.needs, (stepsLookup steps d).isSome = true)
    (HA : ∀ u, ¬ Relation.TransGen (fun a b => edgeB steps a b = true) u u) :
    ∀ fuel, VisitCompleteProp steps fuel ∧ VisitDepsCompleteProp steps fuel := by
  intro fuel
  induction fuel with
  | zero =>
      constructor
      · intro id st _ _ hm
        exact absurd hm (Nat.not_lt_zero _)
      · intro ds st _ _ hm
        exact absurd hm (Nat.not_lt_zero _)
  | succ n ih =>
      have hV : VisitCompleteProp steps (n + 1) := by
        intro id st hid hok hm hanc hsome
        by_cases h1 : id ∈ st.visited
        · exact ⟨st, by simp [visit, h1], rfl⟩
        · by_cases h2 : id ∈ st.visiting
          · exact absurd (hanc id h2) (HA id)
          · obtain ⟨step, hlk⟩ := Option.isSome_iff_exists.mp hsome
            obtain ⟨hstepmem, hstepid⟩ := stepsLookup_mem hlk
            obtain ⟨hsync, hvnd, hvall, hsnd, hfrom, hclosed⟩ := hok
            have hok1 : StateOk steps { st with visiting := st.visiting ++ [id] } := by
              refine ⟨hsync, nodup_append_fresh_gen hvnd h2, ?_, hsnd, hfrom, hclosed⟩
              intro v hv
              rcases List.mem_append.mp hv with hv | hv
              · exact hvall v hv
              · simp at hv
                subst hv
                exact hid
            have hm1 : sortMeasure steps { st with visiting := st.visiting ++ [id] } < n := by
              have := @sortMeasure_push_lt steps st id hid h2
              omega
            have hancdeps : ∀ d ∈ step.needs, d ∈ allIds steps ∧
                (stepsLookup steps d).isSome = true ∧
                ∀ v ∈ ({ st with visiting := st.visiting ++ [id] } : TSortState).visiting,
                  Relation.TransGen (fun a b => edgeB steps a b = true) v d := by
              intro d hd
              refine ⟨mem_allIds_of_need hstepmem hd, HC step hstepmem d hd, ?_⟩
              intro v hv
              have hedge : edgeB steps id d = true := edgeB_of_need hlk hd
              rcases List.mem_append.mp hv with hv | hv
              · exact Relation.TransGen.tail (hanc v hv) hedge
              · simp at hv
                subst hv
                exact Relation.TransGen.single hedge
            obtain ⟨st2, hvd, hvis2⟩ := ih.2 step.needs
              { st with visiting := st.visiting ++ [id] } hancdeps hok1 hm1
            refine ⟨{ st2 with
              visiting := st2.visiting.erase id
              visited := st2.visited ++ [id]
              sorted := st2.sorted ++ [step] }, ?_, ?_⟩
            · simp only [visit, if_neg h1, if_neg h2, hlk]
              simp only [visitDeps] at hvd
              rw [hvd]
            · rw [hvis2]
              show (st.visiting ++ [id]).erase id = st.visiting
              rw [List.erase_append_right _ h2]
              simp
      refine ⟨hV, ?_⟩
      intro ds
      induction ds with
      | nil =>
          intro st _ _ _
          exact ⟨st, by simp [visitDeps, visitDepsF], rfl⟩
      | cons d ds ihds =>
          intro st hds hok hm
          obtain ⟨hdall, hdsome, hdanc⟩ := hds d (List.mem_cons_self _ _)
          obtain ⟨st2, hv, hvis⟩ := hV d st hdall hok hm hdanc hdsome
          obtain ⟨hok2, hext2, _⟩ := ((visit_general steps (n + 1)).1 d st hdall hok hm).2 st2 hv
          have hm2 : sortMeasure steps st2 < n + 1 := by
            have := @sortMeasure_le_of_superset steps st st2 hext2.2.2.1
            omega
          have hds2 : ∀ x ∈ ds, x ∈ allIds steps ∧
              (stepsLookup steps x).isSome = true ∧
              ∀ v ∈ st2.visiting,
                Relation.TransGen (fun a b => edgeB steps a b = true) v x := by
            intro x hx
            obtain ⟨ha, hb, hc⟩ := hds x (List.mem_cons_of_mem _ hx)
            refine ⟨ha, hb, ?_⟩
            intro v hv
            rw [hvis] at hv
            exact hc v hv
          obtain ⟨st', hvd', hvise'⟩ := ihds st2 hds2 hok2 hm2
          refine ⟨st', ?_, by rw [hvise', hvis]⟩
          simp only [visitDeps, visitDepsF]
          rw [hv]
          simpa [visitDeps] using hvd'

theorem stepsLookup_self {steps : List Step} (HN : (steps.map (·.id)).Nodup)
    {s : Step} (hs : s ∈ steps) : stepsLookup steps s.id = some s := by
  cases hlk : stepsLookup steps s.id with
  | none =>
      have hcon := stepsLookup_isSome_of_mem hs
      rw [hlk] at hcon
      exact absurd hcon (by simp)
  | some t =>
      obtain ⟨htmem, htid⟩ := stepsLookup_mem hlk
      have : t = s := List.inj_on_of_nodup_map HN htmem hs htid
      rw [this]

theorem sortGo_complete (steps : List Step)
    (HC : ∀ s ∈ steps, ∀ d ∈ s.needs, (stepsLookup steps d).isSome = true)
    (HA : ∀ u, ¬ Relation.TransGen (fun a b => edgeB steps a b = true) u u) :
    ∀ (remaining : List Step) (st : TSortState),
      StateOk steps st → st.visiting = [] → (∀ s ∈ remaining, s ∈ steps) →
      ∃ stf, sortGo steps remaining st = .success stf.sorted ∧ StateOk steps stf ∧
        Extends st stf ∧ ∀ s ∈ remaining, s.id ∈ stf.visited := by
  intro remaining
  induction remaining with
  | nil =>
      intro st hok _ _
      exact ⟨st, by simp [sortGo], hok, Extends.rfl,
        by intro s hs; exact absurd hs (List.not_mem_nil s)⟩
  | cons s rest ih =>
      intro st hok hvis hmem
      have hmemrest : ∀ x ∈ rest, x ∈ steps :=
        fun x hx => hmem x (List.mem_cons_of_mem _ hx)
      by_cases hsv : s.id ∈ st.visited
      · obtain ⟨stf, h1, h2, h3, h4⟩ := ih st hok hvis hmemrest
        refine ⟨stf, by simpa [sortGo, hsv] using h1, h2, h3, ?_⟩
        intro x hx
        rcases List.mem_cons.mp hx with hx | hx
        · rw [hx]
          exact mem_visited_of_extends h3 hsv
        · exact h4 x hx
      · have hanc : ∀ v ∈ st.visiting,
            Relation.TransGen (fun a b => edgeB steps a b = true) v s.id := by
          intro v hv
          rw [hvis] at hv
          exact absurd hv (List.not_mem_nil v)
        obtain ⟨st2, hv, hvis2⟩ := (visit_complete steps HC HA (sortFuel steps)).1
          s.id st (mem_allIds_of_step (hmem s (List.mem_cons_self _ _))) hok
          (sortMeasure_lt_sortFuel steps st) hanc
          (stepsLookup_isSome_of_mem (hmem s (List.mem_cons_self _ _)))
        obtain ⟨hok2, hext2, hpost2⟩ := ((visit_general steps (sortFuel steps)).1
          s.id st (mem_allIds_of_step (hmem s (List.mem_cons_self _ _))) hok
          (sortMeasure_lt_sortFuel steps st)).2 st2 hv
        have hvis2nil : st2.visiting = [] := by rw [hvis2, hvis]
        obtain ⟨stf, h1, h2, h3, h4⟩ := ih st2 hok2 hvis2nil hmemrest
        refine ⟨stf, by simpa [sortGo, hsv, hv] using h1,
          h2, Extends.trans hext2 h3, ?_⟩
        intro x hx
        rcases List.mem_cons.mp hx with hx | hx
        · rw [hx]
          exact mem_visited_of_extends h3
            (hpost2 (stepsLookup_isSome_of_mem (hmem s (List.mem_cons_self _ _))))
        · exact h4 x hx

theorem topsort_complete (steps : List Step)
    (HN : (steps.map (·.id)).Nodup)
    (HC : ∀ s ∈ steps, ∀ d ∈ s.needs, (stepsLookup steps d).isSome = true)
    (HA : ∀ u, ¬ Relation.TransGen (fun a b => edgeB steps a b = true) u u) :
    ∃ sorted', topologicalSort steps = .success sorted' ∧
      ∀ s ∈ steps, ∃ l1 l2, sorted' = l1 ++ s :: l2 ∧
        ∀ d ∈ s.needs, d ∈ l1.map (·.id) := by
  obtain ⟨stf, hgo, hok, _, hall⟩ := sortGo_complete steps HC HA steps ⟨[], [], []⟩
    (initState_ok steps) rfl (fun s hs => hs)
  refine ⟨stf.sorted, hgo, ?_⟩
  intro s hs
  have hsid : s.id ∈ stf.visited := hall s hs
  rw [hok.1] at hsid
  obtain ⟨t, htmem, htid⟩ := List.mem_map.mp hsid
  have hteq : t = s := by
    have hlkt := hok.2.2.2.2.1 t htmem
    have hlks : stepsLookup steps s.id = some s := stepsLookup_self HN hs
    rw [htid, hlks] at hlkt
    exact ((Option.some.injEq _ _).mp hlkt).symm
  rw [hteq] at htmem
  obtain ⟨l1, l2, hdecomp⟩ := List.append_of_mem htmem
  refine ⟨l1, l2, hdecomp, ?_⟩
  intro d hd
  exact hok.2.2.2.2.2 l1 s l2 hdecomp d hd (HC s hs d hd)

/-- Claim C4, amended: for a plan with unique step ids — (a) when every
referenced need id is present and the needs relation is acyclic,
`topologicalSort` succeeds and every step appears in the output after all the
steps named in its `needs` list; (b) when the needs relation has a cycle, the
sort fails with a cycle error naming a step of the plan — but, as the
counterexample shows, not necessarily a step lying on the cycle itself. -/
theorem topological_sort_amended (steps : List Step)
    (hnodup : (steps.map (·.id)).Nodup) :
    ((∀ s ∈ steps, ∀ d ∈ s.needs, (stepsLookup steps d).isSome = true) →
      (∀ u, ¬ Relation.TransGen (fun a b => edgeB steps a b = true) u u) →
      ∃ sorted', topologicalSort steps = .success sorted' ∧
        ∀ s ∈ steps, ∃ l1 l2, sorted' = l1 ++ s :: l2 ∧
          ∀ d ∈ s.needs, d ∈ l1.map (·.id)) ∧
    (∀ c, Relation.TransGen (fun a b => edgeB steps a b = true) c c →
      ∃ e s, topologicalSort steps = .failure e ∧ s ∈ steps ∧
        e = "Circular dependency detected involving step: " ++ s.id) :=
  ⟨fun HC HA => topsort_complete steps hnodup HC HA,
   fun c hc => topsort_cycle_fails steps c hc⟩

/-- The witness plan for the amended sort theorem: B needs A, no cycle. -/
def planW : List Step := [stepA, stepB]

theorem edge_planW_target {u v : String} (h : edgeB planW u v = true) : v = "A" := by
  unfold edgeB at h
  cases hl : stepsLookup planW u with
  | none => rw [hl] at h; exact absurd h (by simp)
  | some s =>
      rw [hl] at h
      have hs : s ∈ planW.reverse := List.mem_of_find?_eq_some hl
      have hv : v ∈ s.needs := by simpa using h
      simp only [planW, List.reverse_cons, List.reverse_nil] at hs
      simp at hs
      rcases hs with hs | hs <;> subst hs <;> simp_all [stepA, stepB]

theorem edge_planW_notA (v : String) : edgeB planW "A" v = false := rfl

theorem planW_acyclic :
    ∀ u, ¬ Relation.TransGen (fun a b => edgeB planW a b = true) u u := by
  have hsrc : ∀ u v, Relation.TransGen (fun a b => edgeB planW a b = true) u v →
      u ≠ "A" := by
    intro u v h
    induction h with
    | single e =>
        intro hu
        rw [hu, edge_planW_notA] at e
        exact absurd e (by simp)
    | tail _ _ ih => exact ih
  intro u h
  have h1 : u = "A" := by
    cases h with
    | single e => exact edge_planW_target e
    | tail _ e => exact edge_planW_target e
  exact hsrc u u h h1

theorem topological_sort_amended_witness :
    ((planW.map (·.id)).Nodup ∧
      (∀ s ∈ planW, ∀ d ∈ s.needs, (stepsLookup planW d).isSome = true)) ∧
    ∃ sorted', topologicalSort planW = .success sorted' ∧
      ∀ s ∈ planW, ∃ l1 l2, sorted' = l1 ++ s :: l2 ∧
        ∀ d ∈ s.needs, d ∈ l1.map (·.id) := by
  refine ⟨⟨by decide, by decide⟩, ?_⟩
  exact (topological_sort_amended planW (by decide)).1 (by decide) planW_acyclic
